import Mathlib

set_option maxRecDepth 100000

/-
  Shallow embedding of src/src/lib.rs, a no_std SHA-256 implementation in Rust.

  Machine integers are modelled as Nat with explicit reductions:
  u32 values are kept below 2^32 by taking % U32 wherever the Rust code uses
  wrapping arithmetic or a truncating shift; u8 bytes are Nat < 256; the u64
  bit counter is reduced % U64. Byte buffers and word arrays are Lists; the
  fixed sizes (8-word state, 64-byte buffer, 64-word schedule) are maintained
  as invariants. Reads `a[i]` become `l.getD i 0`; writes `a[i] = v` become
  `l.set i v`; in-bounds behaviour coincides with the Rust arrays, and the
  checked (Option-valued) variants at the end of the definitions section
  model the panic-on-out-of-bounds / panic-on-shift-overflow behaviour.
-/

namespace Sha256

def U32 : Nat := 2 ^ 32

def U64 : Nat := 2 ^ 64

/-- Rust: `fn rotr(x: u32, n: u32) -> u32 { (x >> n) | (x << (32 - n)) }`.
The left shift truncates to 32 bits. -/
def rotr (x n : Nat) : Nat := (x >>> n) ||| ((x <<< (32 - n)) % U32)

/-- Bitwise complement on u32: `!x` is XOR with the all-ones 32-bit word. -/
def u32not (x : Nat) : Nat := x ^^^ (U32 - 1)

/-- Rust: `fn ch(x, y, z) = (x & y) ^ (!x & z)`. -/
def ch (x y z : Nat) : Nat := (x &&& y) ^^^ (u32not x &&& z)

/-- Rust: `fn maj(x, y, z) = (x & y) ^ (x & z) ^ (y & z)`. -/
def maj (x y z : Nat) : Nat := (x &&& y) ^^^ (x &&& z) ^^^ (y &&& z)

/-- Rust: `fn bsig0(x) = rotr(x,2) ^ rotr(x,13) ^ rotr(x,22)`. -/
def bsig0 (x : Nat) : Nat := rotr x 2 ^^^ rotr x 13 ^^^ rotr x 22

/-- Rust: `fn bsig1(x) = rotr(x,6) ^ rotr(x,11) ^ rotr(x,25)`. -/
def bsig1 (x : Nat) : Nat := rotr x 6 ^^^ rotr x 11 ^^^ rotr x 25

/-- Rust: `fn ssig0(x) = rotr(x,7) ^ rotr(x,18) ^ (x >> 3)`. -/
def ssig0 (x : Nat) : Nat := rotr x 7 ^^^ rotr x 18 ^^^ (x >>> 3)

/-- Rust: `fn ssig1(x) = rotr(x,17) ^ rotr(x,19) ^ (x >> 10)`. -/
def ssig1 (x : Nat) : Nat := rotr x 17 ^^^ rotr x 19 ^^^ (x >>> 10)

/-- The round constant table `K: [u32; 64]`. -/
def K : List Nat :=
  [0x428a2f98, 0x71374491, 0xb5c0fbcf, 0xe9b5dba5,
   0x3956c25b, 0x59f111f1, 0x923f82a4, 0xab1c5ed5] ++
  [0xd807aa98, 0x12835b01, 0x243185be, 0x550c7dc3,
   0x72be5d74, 0x80deb1fe, 0x9bdc06a7, 0xc19bf174] ++
  [0xe49b69c1, 0xefbe4786, 0x0fc19dc6, 0x240ca1cc,
   0x2de92c6f, 0x4a7484aa, 0x5cb0a9dc, 0x76f988da] ++
  [0x983e5152, 0xa831c66d, 0xb00327c8, 0xbf597fc7,
   0xc6e00bf3, 0xd5a79147, 0x06ca6351, 0x14292967] ++
  [0x27b70a85, 0x2e1b2138, 0x4d2c6dfc, 0x53380d13,
   0x650a7354, 0x766a0abb, 0x81c2c92e, 0x92722c85] ++
  [0xa2bfe8a1, 0xa81a664b, 0xc24b8b70, 0xc76c51a3,
   0xd192e819, 0xd6990624, 0xf40e3585, 0x106aa070] ++
  [0x19a4c116, 0x1e376c08, 0x2748774c, 0x34b0bcb5,
   0x391c0cb3, 0x4ed8aa4a, 0x5b9cca4f, 0x682e6ff3] ++
  [0x748f82ee, 0x78a5636f, 0x84c87814, 0x8cc70208,
   0x90befffa, 0xa4506ceb, 0xbef9a3f7, 0xc67178f2]

/-- Big-endian assembly of one schedule word from four bytes:
`(b0 << 24) | (b1 << 16) | (b2 << 8) | b3`. -/
def toWord (b0 b1 b2 b3 : Nat) : Nat :=
  (b0 <<< 24) ||| (b1 <<< 16) ||| (b2 <<< 8) ||| b3

/-- First schedule loop: `for i in 0..16 { w[i] = ... }` over `w = [0u32; 64]`. -/
def initW (block w : List Nat) : List Nat :=
  (List.range 16).foldl (fun w i =>
    w.set i (toWord (block.getD (i * 4) 0) (block.getD (i * 4 + 1) 0)
      (block.getD (i * 4 + 2) 0) (block.getD (i * 4 + 3) 0))) w

/-- Second schedule loop:
`for i in 16..64 { w[i] = ssig1(w[i-2]) + w[i-7] + ssig0(w[i-15]) + w[i-16] }`,
all additions wrapping mod 2^32. -/
def extendW (w0 : List Nat) : List Nat :=
  (List.range' 16 48).foldl (fun w i =>
    w.set i ((ssig1 (w.getD (i - 2) 0) + w.getD (i - 7) 0 +
      ssig0 (w.getD (i - 15) 0) + w.getD (i - 16) 0) % U32)) w0

/-- The full 64-word message schedule of one 64-byte block. -/
def fullW (block : List Nat) : List Nat :=
  extendW (initW block (List.replicate 64 0))

/-- The eight working variables `a..h` of the compression loop. -/
structure Vars where
  a : Nat
  b : Nat
  c : Nat
  d : Nat
  e : Nat
  f : Nat
  g : Nat
  h : Nat
  deriving DecidableEq, Repr

/-- One round of the main compression loop; `ki` and `wi` are `K[i]` and
`w[i]`, chains of `wrapping_add` collapse to a single `% U32`. -/
def roundStep (ki wi : Nat) (v : Vars) : Vars :=
  let t1 := (v.h + bsig1 v.e + ch v.e v.f v.g + ki + wi) % U32
  let t2 := (bsig0 v.a + maj v.a v.b v.c) % U32
  { a := (t1 + t2) % U32, b := v.a, c := v.b, d := v.c,
    e := (v.d + t1) % U32, f := v.e, g := v.f, h := v.g }

/-- The state-level compression: schedule expansion, 64 rounds, then the
working variables are added back into the state mod 2^32. -/
def transformH (hs block : List Nat) : List Nat :=
  let w := fullW block
  let v0 : Vars := ⟨hs.getD 0 0, hs.getD 1 0, hs.getD 2 0, hs.getD 3 0,
    hs.getD 4 0, hs.getD 5 0, hs.getD 6 0, hs.getD 7 0⟩
  let v := (List.range 64).foldl (fun v i => roundStep (K.getD i 0) (w.getD i 0) v) v0
  [(hs.getD 0 0 + v.a) % U32, (hs.getD 1 0 + v.b) % U32,
   (hs.getD 2 0 + v.c) % U32, (hs.getD 3 0 + v.d) % U32,
   (hs.getD 4 0 + v.e) % U32, (hs.getD 5 0 + v.f) % U32,
   (hs.getD 6 0 + v.g) % U32, (hs.getD 7 0 + v.h) % U32]

/-- Rust: `#[repr(C)] pub struct Sha256Ctx { h: [u32; 8], buffer: [u8; 64],
buflen: u32, bitlen: u64 }`. -/
structure Sha256Ctx where
  h : List Nat
  buffer : List Nat
  buflen : Nat
  bitlen : Nat
  deriving DecidableEq, Repr

/-- Rust: `fn transform(&mut self, block: &[u8])` — only the `h` field of the
context is written; the schedule `w` is a local. -/
def Sha256Ctx.transform (ctx : Sha256Ctx) (block : List Nat) : Sha256Ctx :=
  { ctx with h := transformH ctx.h block }

/-- The eight fixed SHA-256 state initialization constants. -/
def H0 : List Nat :=
  [0x6a09e667, 0xbb67ae85, 0x3c6ef372, 0xa54ff53a,
   0x510e527f, 0x9b05688c, 0x1f83d9ab, 0x5be0cd19]

/-- Rust: `rust_sha256_init` — sets `h`, `buflen`, `bitlen`; the buffer
bytes are left as they were. -/
def rust_sha256_init (ctx : Sha256Ctx) : Sha256Ctx :=
  { ctx with h := H0, buflen := 0, bitlen := 0 }

/-- Byte-by-byte copy loop `for j in 0..len { buf[pos + j] = data[j] }`. -/
def writeBytes (buf : List Nat) (pos : Nat) (data : List Nat) : List Nat :=
  match data with
  | [] => buf
  | b :: rest => writeBytes (buf.set pos b) (pos + 1) rest

/-- The block loop `while i + 64 <= len { transform(data[i..i+64]); i += 64 }`,
iterated `len / 64` times; returns the context and the unconsumed tail. -/
def processBlocksGo : Nat → Sha256Ctx → List Nat → Sha256Ctx × List Nat
  | 0, ctx, d => (ctx, d)
  | n + 1, ctx, d => processBlocksGo n (ctx.transform (d.take 64)) (d.drop 64)

def processBlocks (ctx : Sha256Ctx) (d : List Nat) : Sha256Ctx × List Nat :=
  processBlocksGo (d.length / 64) ctx d

/-- Steps 3 and 4 of update: run the transform on each remaining full
64-byte window of the unconsumed input (the `while i + 64 <= len` loop),
then copy the remaining tail (`if i < len`) to the front of the buffer and
set `buflen` to its length. -/
def updateBlocksPhase (ctx : Sha256Ctx) (rest : List Nat) : Sha256Ctx :=
  let pr := processBlocks ctx rest
  if pr.2.length > 0 then
    { pr.1 with buffer := writeBytes pr.1.buffer 0 pr.2, buflen := pr.2.length }
  else pr.1

/-- Rust: `rust_sha256_update(ctx, data, len)`. Adds `8*len` to the bit
counter, completes a pending partial block (early-returning when the data
does not fill it and running the transform plus consuming `64 - buflen`
bytes otherwise), then processes full blocks and buffers the tail. -/
def rust_sha256_update (ctx : Sha256Ctx) (data : List Nat) : Sha256Ctx :=
  let bl := (ctx.bitlen + data.length * 8) % U64
  if ctx.buflen > 0 ∧ data.length < 64 - ctx.buflen then
    { ctx with bitlen := bl,
               buffer := writeBytes ctx.buffer ctx.buflen data,
               buflen := ctx.buflen + data.length }
  else if ctx.buflen > 0 then
    let filled := writeBytes ctx.buffer ctx.buflen (data.take (64 - ctx.buflen))
    let after := { Sha256Ctx.transform { ctx with buffer := filled } filled with buflen := 0 }
    { updateBlocksPhase after (data.drop (64 - ctx.buflen)) with bitlen := bl }
  else
    { updateBlocksPhase ctx data with bitlen := bl }

/-- Big-endian serialization of the 64-bit counter, `(bits >> s) as u8`. -/
def u64be (bits : Nat) : List Nat :=
  [(bits >>> 56) % 256, (bits >>> 48) % 256, (bits >>> 40) % 256,
   (bits >>> 32) % 256, (bits >>> 24) % 256, (bits >>> 16) % 256,
   (bits >>> 8) % 256, bits % 256]

/-- Finalize steps 1-2: append the `0x80` byte at position `buflen`, and
when `buflen + 1 > 56` (no room for the length field) zero-fill to 64, run
the transform on that extra block and reset `buflen`. Returns the list of
blocks transformed here together with the resulting context. -/
def finalPad (ctx : Sha256Ctx) : List (List Nat) × Sha256Ctx :=
  let buf1 := ctx.buffer.set ctx.buflen 0x80
  let bl1 := ctx.buflen + 1
  if bl1 > 56 then
    let bufz := writeBytes buf1 bl1 (List.replicate (64 - bl1) 0)
    ([bufz], { Sha256Ctx.transform { ctx with buffer := bufz } bufz with buflen := 0 })
  else ([], { ctx with buffer := buf1, buflen := bl1 })

/-- Finalize steps 3-4: zero-fill from `buflen` up to byte 56, then write
the 64-bit big-endian bit count into bytes 56..63. -/
def finalLenBlock (ctx2 : Sha256Ctx) (bits : Nat) : List Nat :=
  writeBytes (writeBytes ctx2.buffer ctx2.buflen (List.replicate (56 - ctx2.buflen) 0))
    56 (u64be bits)

/-- Finalize step 6: serialize the 8 state words big-endian, word 0 first. -/
def digestBytes (hs : List Nat) : List Nat :=
  List.flatten ((List.range 8).map (fun i =>
    let v := hs.getD i 0
    [(v >>> 24) % 256, (v >>> 16) % 256, (v >>> 8) % 256, v % 256]))

/-- Rust: `rust_sha256_final(ctx, out)` instrumented with the list of blocks
handed to `transform`, in order: the result is (blocks, final context,
32-byte digest). Appends `0x80`, then if `buflen > 56` zero-fills to 64 and
runs an extra transform, zero-fills to 56, writes the big-endian bit count
into bytes 56..63, runs the final transform, and serializes the state
big-endian. After the zero-fill loop `buflen` is 56 and stays 56. -/
def rust_sha256_final_trace (ctx : Sha256Ctx) :
    List (List Nat) × Sha256Ctx × List Nat :=
  let bits := ctx.bitlen
  let st2 := finalPad ctx
  let buf4 := finalLenBlock st2.2 bits
  let ctx3 := { Sha256Ctx.transform { st2.2 with buffer := buf4 } buf4 with buflen := 56 }
  (st2.1 ++ [buf4], ctx3, digestBytes ctx3.h)

/-- Rust `rust_sha256_final`: mutated context together with the digest. -/
def rust_sha256_final (ctx : Sha256Ctx) : Sha256Ctx × List Nat :=
  (rust_sha256_final_trace ctx).2

/-- The digest bytes written through `out_hash32`. -/
def finalDigest (ctx : Sha256Ctx) : List Nat :=
  (rust_sha256_final ctx).2

/-- The byte table `b"0123456789abcdef"`. -/
def HEX_CHARS : List Nat :=
  [48, 49, 50, 51, 52, 53, 54, 55, 56, 57, 97, 98, 99, 100, 101, 102]

/-- Rust: `rust_sha256_to_hex(hash32, hex_out)` — two hex digits per byte,
high nibble first, then a terminating 0 byte at index 64. -/
def rust_sha256_to_hex (hash : List Nat) : List Nat :=
  List.flatten ((List.range 32).map (fun i =>
    let b := hash.getD i 0
    [HEX_CHARS.getD (b >>> 4) 0, HEX_CHARS.getD (b &&& 0x0F) 0])) ++ [0]

/-- A zero-initialized caller-allocated context (`#[repr(C)]`, zeroed). -/
def zeroCtx : Sha256Ctx :=
  { h := List.replicate 8 0, buffer := List.replicate 64 0, buflen := 0, bitlen := 0 }

/-- State-level iteration of the compression over the leading complete
64-byte blocks of a byte stream, `n` blocks deep. -/
def hashWordsGo : Nat → List Nat → List Nat → List Nat
  | 0, hs, _ => hs
  | n + 1, hs, d => hashWordsGo n (transformH hs (d.take 64)) (d.drop 64)

/-- The state reached from `hs` after compressing every complete 64-byte
block of `msg`. -/
def hashBlocksH (hs msg : List Nat) : List Nat :=
  hashWordsGo (msg.length / 64) hs msg

/-- The abstraction relation between the byte stream `msg` absorbed so far
and a context: the state has digested the complete blocks, the buffer
holds exactly the trailing `msg.length % 64` bytes, and the bit counter is
`8 * msg.length` reduced mod 2^64. -/
def Absorbed (msg : List Nat) (ctx : Sha256Ctx) : Prop :=
  ctx.h = hashBlocksH H0 msg ∧
  ctx.buflen = msg.length % 64 ∧
  ctx.buffer.take ctx.buflen = msg.drop (msg.length - msg.length % 64) ∧
  ctx.buffer.length = 64 ∧
  ctx.bitlen = msg.length * 8 % U64

/-- Specification-side message schedule, following FIPS 180-4 / the spec
text: the first 16 words are the block's bytes read as big-endian 32-bit
integers; each word 16..63 is ssig1 of the word two positions back, plus
the word seven back, plus ssig0 of the word fifteen back, plus the word
sixteen back, modulo 2^32. `specWs block n` lists words 0..n-1. -/
def specWs (block : List Nat) : Nat → List Nat
  | 0 => []
  | n + 1 =>
    let prev := specWs block n
    prev ++ [if n < 16 then
        block.getD (n * 4) 0 * 2 ^ 24 + block.getD (n * 4 + 1) 0 * 2 ^ 16 +
          block.getD (n * 4 + 2) 0 * 2 ^ 8 + block.getD (n * 4 + 3) 0
      else
        (ssig1 (prev.getD (n - 2) 0) + prev.getD (n - 7) 0 +
          ssig0 (prev.getD (n - 15) 0) + prev.getD (n - 16) 0) % U32]

/-- Specification-side compression function: 64 rounds driven by the
specification schedule, then the working variables are added back into the
state word-by-word modulo 2^32. -/
def specCompress (hs block : List Nat) : List Nat :=
  let w := specWs block 64
  let v0 : Vars := ⟨hs.getD 0 0, hs.getD 1 0, hs.getD 2 0, hs.getD 3 0,
    hs.getD 4 0, hs.getD 5 0, hs.getD 6 0, hs.getD 7 0⟩
  let v := (List.range 64).foldl (fun v i => roundStep (K.getD i 0) (w.getD i 0) v) v0
  List.zipWith (fun x y => (x + y) % U32) hs [v.a, v.b, v.c, v.d, v.e, v.f, v.g, v.h]

/-
  Checked (Option-valued) variants: `none` is the panic branch. A slice or
  array read/write panics when the index is out of bounds, and a shift
  panics when the amount is not below the bit width; everything else is
  total. The theorems below show the panic branch is unreachable under the
  documented preconditions.
-/

/-- Checked array/slice read. -/
def getC (l : List Nat) (i : Nat) : Option Nat := l[i]?

/-- Checked array/slice write. -/
def setC (l : List Nat) (i : Nat) (v : Nat) : Option (List Nat) :=
  if i < l.length then some (l.set i v) else none

/-- Checked left shift on u32 (panics when the amount is 32 or more). -/
def shlC (x n : Nat) : Option Nat :=
  if n < 32 then some ((x <<< n) % U32) else none

/-- Checked right shift on u32 (panics when the amount is 32 or more). -/
def shrC (x n : Nat) : Option Nat :=
  if n < 32 then some (x >>> n) else none

/-- Checked `rotr`: both `x >> n` and `x << (32 - n)` must have a legal
shift amount, so `n = 0` (making `32 - n = 32`) also panics. -/
def rotrC (x n : Nat) : Option Nat := do
  let a ← shrC x n
  let b ← shlC x (32 - n)
  pure (a ||| b)

def bsig0C (x : Nat) : Option Nat := do
  pure ((← rotrC x 2) ^^^ (← rotrC x 13) ^^^ (← rotrC x 22))

def bsig1C (x : Nat) : Option Nat := do
  pure ((← rotrC x 6) ^^^ (← rotrC x 11) ^^^ (← rotrC x 25))

def ssig0C (x : Nat) : Option Nat := do
  pure ((← rotrC x 7) ^^^ (← rotrC x 18) ^^^ (← shrC x 3))

def ssig1C (x : Nat) : Option Nat := do
  pure ((← rotrC x 17) ^^^ (← rotrC x 19) ^^^ (← shrC x 10))

/-- Checked body of the first schedule loop. -/
def initWStepC (block : List Nat) (w : List Nat) (i : Nat) : Option (List Nat) := do
  let b0 ← getC block (i * 4)
  let b1 ← getC block (i * 4 + 1)
  let b2 ← getC block (i * 4 + 2)
  let b3 ← getC block (i * 4 + 3)
  setC w i (toWord b0 b1 b2 b3)

/-- Checked body of the second schedule loop. -/
def extendWStepC (w : List Nat) (i : Nat) : Option (List Nat) := do
  let x2 ← getC w (i - 2)
  let x7 ← getC w (i - 7)
  let x15 ← getC w (i - 15)
  let x16 ← getC w (i - 16)
  let s1 ← ssig1C x2
  let s0 ← ssig0C x15
  setC w i ((s1 + x7 + s0 + x16) % U32)

/-- Checked body of the main compression loop. -/
def roundStepC (w : List Nat) (v : Vars) (i : Nat) : Option Vars := do
  let ki ← getC K i
  let wi ← getC w i
  let bs1 ← bsig1C v.e
  let bs0 ← bsig0C v.a
  let t1 := (v.h + bs1 + ch v.e v.f v.g + ki + wi) % U32
  let t2 := (bs0 + maj v.a v.b v.c) % U32
  pure ({ a := (t1 + t2) % U32, b := v.a, c := v.b, d := v.c,
          e := (v.d + t1) % U32, f := v.e, g := v.f, h := v.g } : Vars)

/-- Checked reads seeding the working variables from the state. -/
def initVarsC (hs : List Nat) : Option Vars := do
  let a0 ← getC hs 0
  let b0 ← getC hs 1
  let c0 ← getC hs 2
  let d0 ← getC hs 3
  let e0 ← getC hs 4
  let f0 ← getC hs 5
  let g0 ← getC hs 6
  let h0 ← getC hs 7
  pure ⟨a0, b0, c0, d0, e0, f0, g0, h0⟩

/-- Checked add-back of the working variables into the state. -/
def addBackC (hs : List Nat) (v : Vars) : Option (List Nat) := do
  let a0 ← getC hs 0
  let b0 ← getC hs 1
  let c0 ← getC hs 2
  let d0 ← getC hs 3
  let e0 ← getC hs 4
  let f0 ← getC hs 5
  let g0 ← getC hs 6
  let h0 ← getC hs 7
  pure [(a0 + v.a) % U32, (b0 + v.b) % U32, (c0 + v.c) % U32, (d0 + v.d) % U32,
        (e0 + v.e) % U32, (f0 + v.f) % U32, (g0 + v.g) % U32, (h0 + v.h) % U32]

/-- Checked compression transform: every schedule and state access is a
checked read/write. -/
def transformHC (hs block : List Nat) : Option (List Nat) := do
  let w1 ← (List.range 16).foldlM (initWStepC block) (List.replicate 64 0)
  let w ← (List.range' 16 48).foldlM extendWStepC w1
  let v0 ← initVarsC hs
  let v ← (List.range 64).foldlM (roundStepC w) v0
  addBackC hs v

/-- Checked byte-copy loop. -/
def writeBytesC (buf : List Nat) (pos : Nat) (data : List Nat) : Option (List Nat) :=
  match data with
  | [] => some buf
  | b :: rest => do writeBytesC (← setC buf pos b) (pos + 1) rest

/-- Checked block loop of update. -/
def processBlocksGoC : Nat → Sha256Ctx → List Nat → Option (Sha256Ctx × List Nat)
  | 0, ctx, d => some (ctx, d)
  | n + 1, ctx, d => do
    let hs ← transformHC ctx.h (d.take 64)
    processBlocksGoC n { ctx with h := hs } (d.drop 64)

/-- Checked block-plus-remainder phase of update. -/
def updateBlocksPhaseC (ctx : Sha256Ctx) (rest : List Nat) : Option Sha256Ctx := do
  let pr ← processBlocksGoC (rest.length / 64) ctx rest
  if pr.2.length > 0 then do
    let buf ← writeBytesC pr.1.buffer 0 pr.2
    pure { pr.1 with buffer := buf, buflen := pr.2.length }
  else pure pr.1

/-- Checked `rust_sha256_update`. -/
def updateC (ctx : Sha256Ctx) (data : List Nat) : Option Sha256Ctx := do
  let bl := (ctx.bitlen + data.length * 8) % U64
  if ctx.buflen > 0 ∧ data.length < 64 - ctx.buflen then do
    let buf ← writeBytesC ctx.buffer ctx.buflen data
    pure { ctx with bitlen := bl, buffer := buf, buflen := ctx.buflen + data.length }
  else if ctx.buflen > 0 then do
    let filled ← writeBytesC ctx.buffer ctx.buflen (data.take (64 - ctx.buflen))
    let hs ← transformHC ctx.h filled
    let res ← updateBlocksPhaseC { ctx with h := hs, buffer := filled, buflen := 0 }
      (data.drop (64 - ctx.buflen))
    pure { res with bitlen := bl }
  else do
    let res ← updateBlocksPhaseC ctx data
    pure { res with bitlen := bl }

/-- Checked finalize steps 1-2. -/
def finalPadC (ctx : Sha256Ctx) : Option Sha256Ctx := do
  let buf1 ← setC ctx.buffer ctx.buflen 0x80
  let bl1 := ctx.buflen + 1
  if bl1 > 56 then do
    let bufz ← writeBytesC buf1 bl1 (List.replicate (64 - bl1) 0)
    let hs ← transformHC ctx.h bufz
    pure { ctx with h := hs, buffer := bufz, buflen := 0 }
  else pure { ctx with buffer := buf1, buflen := bl1 }

/-- Checked finalize steps 3-4. -/
def finalLenBlockC (ctx2 : Sha256Ctx) (bits : Nat) : Option (List Nat) := do
  let buf3 ← writeBytesC ctx2.buffer ctx2.buflen (List.replicate (56 - ctx2.buflen) 0)
  writeBytesC buf3 56 (u64be bits)

/-- Checked finalize step 6. -/
def digestBytesC (hs : List Nat) : Option (List Nat) :=
  (List.range 8).foldlM (fun acc i => do
    let v ← getC hs i
    pure (acc ++ [(v >>> 24) % 256, (v >>> 16) % 256, (v >>> 8) % 256, v % 256])) []

/-- Checked `rust_sha256_final`. -/
def finalC (ctx : Sha256Ctx) : Option (Sha256Ctx × List Nat) := do
  let bits := ctx.bitlen
  let ctx2 ← finalPadC ctx
  let buf4 ← finalLenBlockC ctx2 bits
  let hs3 ← transformHC ctx2.h buf4
  let ctx3 : Sha256Ctx := { ctx2 with h := hs3, buffer := buf4, buflen := 56 }
  let digest ← digestBytesC ctx3.h
  pure (ctx3, digest)

/-- Checked `rust_sha256_to_hex`. -/
def toHexC (hash : List Nat) : Option (List Nat) := do
  let chars ← (List.range 32).foldlM (fun acc i => do
    let b ← getC hash i
    let hi ← getC HEX_CHARS (b >>> 4)
    let lo ← getC HEX_CHARS (b &&& 0x0F)
    pure (acc ++ [hi, lo])) []
  pure (chars ++ [0])

/-
  Theorems. First the infrastructure lemmas about the embedding, then one
  theorem per claim.
-/

theorem writeBytes_length (data : List Nat) : ∀ buf pos,
    (writeBytes buf pos data).length = buf.length := by
  induction data with
  | nil => intro buf pos; rfl
  | cons b rest ih =>
    intro buf pos
    simp [writeBytes, ih]

theorem writeBytes_eq (data : List Nat) : ∀ buf pos, pos + data.length ≤ buf.length →
    writeBytes buf pos data = buf.take pos ++ data ++ buf.drop (pos + data.length) := by
  induction data with
  | nil => intro buf pos _; simp [writeBytes]
  | cons b rest ih =>
    intro buf pos hle
    have hpos : pos < buf.length := by simp at hle; omega
    have hlen : (buf.set pos b).length = buf.length := by simp
    rw [writeBytes, ih (buf.set pos b) (pos + 1) (by simp at hle ⊢; omega)]
    rw [List.set_eq_take_append_cons_drop, if_pos hpos]
    have h1 : ((buf.take pos ++ b :: buf.drop (pos + 1)).take (pos + 1)) =
        buf.take pos ++ [b] := by
      rw [List.take_append_eq_append_take]
      have : (buf.take pos).length = pos := by simp; omega
      rw [List.take_of_length_le (by omega), this]
      simp
    have hA : (buf.take pos).length = pos := by simp; omega
    have h2 : ((buf.take pos ++ b :: buf.drop (pos + 1)).drop (pos + 1 + rest.length)) =
        buf.drop (pos + 1 + rest.length) := by
      have hB : (buf.take pos).drop (pos + 1 + rest.length) = [] :=
        List.drop_eq_nil_of_le (by simp; omega)
      have hC : pos + 1 + rest.length - pos = rest.length + 1 := by omega
      rw [List.drop_append_eq_append_drop, hA, hB, hC, List.nil_append,
        List.drop_succ_cons, List.drop_drop]
    rw [h1, h2]
    have hidx : pos + (b :: rest).length = pos + 1 + rest.length := by simp; omega
    rw [hidx]
    simp

theorem writeBytes_take_drop (data buf : List Nat) (pos : Nat)
    (h : pos + data.length ≤ buf.length) :
    (writeBytes buf pos data).take pos = buf.take pos ∧
    (writeBytes buf pos data).drop (pos + data.length) = buf.drop (pos + data.length) := by
  rw [writeBytes_eq data buf pos h]
  have hl : (buf.take pos).length = pos := by simp; omega
  have hl2 : (buf.take pos ++ data).length = pos + data.length := by simp; omega
  constructor
  · rw [List.append_assoc, List.take_append_eq_append_take, hl]
    simp [List.take_take]
  · have h3 : (buf.take pos ++ data).drop (pos + data.length) = [] :=
      List.drop_eq_nil_of_le (by simp [hl2])
    rw [List.drop_append_eq_append_drop, hl2, h3]
    simp

theorem processBlocksGo_fst : ∀ n (ctx : Sha256Ctx) d,
    (processBlocksGo n ctx d).1 = { ctx with h := hashWordsGo n ctx.h d } := by
  intro n
  induction n with
  | zero => intro ctx d; rfl
  | succ n ih =>
    intro ctx d
    rw [processBlocksGo, ih, hashWordsGo]
    rfl

theorem processBlocksGo_snd : ∀ n (ctx : Sha256Ctx) d,
    (processBlocksGo n ctx d).2 = d.drop (64 * n) := by
  intro n
  induction n with
  | zero => intro ctx d; simp [processBlocksGo]
  | succ n ih =>
    intro ctx d
    rw [processBlocksGo, ih, List.drop_drop]
    congr 1
    ring

theorem processBlocks_fst (ctx : Sha256Ctx) (d : List Nat) :
    (processBlocks ctx d).1 = { ctx with h := hashBlocksH ctx.h d } := by
  rw [processBlocks, processBlocksGo_fst, hashBlocksH]

theorem processBlocks_snd (ctx : Sha256Ctx) (d : List Nat) :
    (processBlocks ctx d).2 = d.drop (d.length - d.length % 64) := by
  rw [processBlocks, processBlocksGo_snd]
  congr 1
  omega

theorem processBlocks_snd_length (ctx : Sha256Ctx) (d : List Nat) :
    (processBlocks ctx d).2.length = d.length % 64 := by
  rw [processBlocks_snd]
  simp
  omega

theorem hashBlocksH_small (hs msg : List Nat) (h : msg.length < 64) :
    hashBlocksH hs msg = hs := by
  rw [hashBlocksH, Nat.div_eq_of_lt h]
  rfl

theorem hashBlocksH_block (hs block y : List Nat) (h : block.length = 64) :
    hashBlocksH hs (block ++ y) = hashBlocksH (transformH hs block) y := by
  have hlen : (block ++ y).length = 64 + y.length := by simp [h]
  have hdiv : (block ++ y).length / 64 = y.length / 64 + 1 := by rw [hlen]; omega
  have h1 : (block ++ y).take 64 = block := List.take_left' h
  have h2 : (block ++ y).drop 64 = y := List.drop_left' h
  rw [hashBlocksH, hdiv, hashWordsGo, h1, h2, hashBlocksH]

theorem hashBlocksH_append (hs x y : List Nat) (h : 64 ∣ x.length) :
    hashBlocksH hs (x ++ y) = hashBlocksH (hashBlocksH hs x) y := by
  obtain ⟨k, hk⟩ := h
  induction k generalizing x hs with
  | zero =>
    have : x = [] := List.eq_nil_of_length_eq_zero (by omega)
    subst this
    simp [hashBlocksH_small hs [] (by simp)]
  | succ k ih =>
    have h64 : 64 ≤ x.length := by omega
    have hb : (x.take 64).length = 64 := by simp; omega
    have hx : x = x.take 64 ++ x.drop 64 := (List.take_append_drop 64 x).symm
    have hr : (x.drop 64).length = 64 * k := by simp; omega
    calc hashBlocksH hs (x ++ y)
        = hashBlocksH hs (x.take 64 ++ (x.drop 64 ++ y)) := by
          rw [← List.append_assoc, ← hx]
      _ = hashBlocksH (transformH hs (x.take 64)) (x.drop 64 ++ y) :=
          hashBlocksH_block _ _ _ hb
      _ = hashBlocksH (hashBlocksH (transformH hs (x.take 64)) (x.drop 64)) y :=
          ih _ _ hr
      _ = hashBlocksH (hashBlocksH hs x) y := by
          rw [(by rw [← hx] : hashBlocksH hs (x.take 64 ++ x.drop 64) = hashBlocksH hs x).symm,
            hashBlocksH_block _ _ _ hb]

theorem updateBlocksPhase_facts (ctx : Sha256Ctx) (rest : List Nat)
    (hwf : ctx.buffer.length = 64) (hbl0 : ctx.buflen = 0) :
    (updateBlocksPhase ctx rest).h = hashBlocksH ctx.h rest ∧
    (updateBlocksPhase ctx rest).bitlen = ctx.bitlen ∧
    (updateBlocksPhase ctx rest).buflen = rest.length % 64 ∧
    (updateBlocksPhase ctx rest).buffer.length = 64 ∧
    (updateBlocksPhase ctx rest).buffer.take (rest.length % 64) =
      rest.drop (rest.length - rest.length % 64) := by
  have hrem : (processBlocks ctx rest).2 = rest.drop (rest.length - rest.length % 64) :=
    processBlocks_snd ctx rest
  have hremlen : (processBlocks ctx rest).2.length = rest.length % 64 :=
    processBlocks_snd_length ctx rest
  have hfst : (processBlocks ctx rest).1 = { ctx with h := hashBlocksH ctx.h rest } :=
    processBlocks_fst ctx rest
  have hmod : rest.length % 64 < 64 := Nat.mod_lt _ (by norm_num)
  rw [updateBlocksPhase]
  by_cases hpos : (processBlocks ctx rest).2.length > 0
  · rw [if_pos hpos]
    have hwlen : (writeBytes (processBlocks ctx rest).1.buffer 0 (processBlocks ctx rest).2).length
        = 64 := by rw [writeBytes_length, hfst]; exact hwf
    refine ⟨by rw [hfst], by rw [hfst], by rw [hremlen], hwlen, ?_⟩
    have hble : 0 + (processBlocks ctx rest).2.length ≤ (processBlocks ctx rest).1.buffer.length := by
      rw [hremlen, hfst]
      simpa [hwf] using le_of_lt hmod
    rw [writeBytes_eq _ _ _ hble]
    simp only [List.take_zero, List.nil_append]
    rw [List.take_left' hremlen]
    exact hrem
  · rw [if_neg hpos]
    have hrz : rest.length % 64 = 0 := by omega
    refine ⟨by rw [hfst], by rw [hfst], ?_, by rw [hfst]; exact hwf, ?_⟩
    · rw [hfst]
      simpa [hrz] using hbl0
    · rw [hrz]
      simp

theorem hashBlocksH_exact (hs b : List Nat) (h : b.length = 64) :
    hashBlocksH hs b = transformH hs b := by
  have hb := hashBlocksH_block hs b [] h
  rw [List.append_nil] at hb
  rw [hb, hashBlocksH_small _ _ (by simp)]

theorem absorbed_init (ctx0 : Sha256Ctx) (hb : ctx0.buffer.length = 64) :
    Absorbed [] (rust_sha256_init ctx0) := by
  refine ⟨?_, rfl, rfl, hb, ?_⟩
  · rw [hashBlocksH_small _ _ (by simp)]
    rfl
  · simp [rust_sha256_init]

theorem absorbed_update (msg data : List Nat) (ctx : Sha256Ctx)
    (habs : Absorbed msg ctx) :
    Absorbed (msg ++ data) (rust_sha256_update ctx data) := by
  obtain ⟨hh, hbl, hbuf, hlen64, hbit⟩ := habs
  have hr : msg.length % 64 < 64 := Nat.mod_lt _ (by norm_num)
  have hTlen : (msg.drop (msg.length - msg.length % 64)).length = msg.length % 64 := by
    simp
    omega
  have hClen : (msg.take (msg.length - msg.length % 64)).length
      = msg.length - msg.length % 64 := by
    rw [List.length_take]
    omega
  have hCdvd : 64 ∣ (msg.take (msg.length - msg.length % 64)).length := by
    rw [hClen]
    exact ⟨msg.length / 64, by omega⟩
  have hsplit : msg.take (msg.length - msg.length % 64) ++
      msg.drop (msg.length - msg.length % 64) = msg := List.take_append_drop _ _
  have hhC : hashBlocksH H0 msg
      = hashBlocksH H0 (msg.take (msg.length - msg.length % 64)) := by
    conv_lhs => rw [← hsplit]
    rw [hashBlocksH_append _ _ _ hCdvd]
    exact hashBlocksH_small _ _ (by rw [hTlen]; exact hr)
  simp only [rust_sha256_update]
  by_cases hc1 : ctx.buflen > 0 ∧ data.length < 64 - ctx.buflen
  · rw [if_pos hc1]
    obtain ⟨hcpos, hcsmall⟩ := hc1
    refine ⟨?_, ?_, ?_, ?_, ?_⟩
    · show ctx.h = _
      rw [hh, hhC]
      conv_rhs => rw [← hsplit, List.append_assoc]
      rw [hashBlocksH_append _ _ _ hCdvd]
      exact (hashBlocksH_small _ _ (by simp; omega)).symm
    · show ctx.buflen + data.length = _
      simp only [List.length_append]
      omega
    · show (writeBytes ctx.buffer ctx.buflen data).take (ctx.buflen + data.length) = _
      rw [writeBytes_eq _ _ _ (by rw [hlen64]; omega)]
      have hplen : (ctx.buffer.take ctx.buflen ++ data).length
          = ctx.buflen + data.length := by
        rw [List.length_append, List.length_take]
        omega
      rw [List.take_left' hplen, hbuf]
      have hidx : (msg ++ data).length - (msg ++ data).length % 64
          = msg.length - msg.length % 64 := by
        simp only [List.length_append]
        omega
      rw [hidx, List.drop_append_eq_append_drop]
      have h0 : msg.length - msg.length % 64 - msg.length = 0 := by omega
      rw [h0, List.drop_zero]
    · show (writeBytes ctx.buffer ctx.buflen data).length = 64
      rw [writeBytes_length]
      exact hlen64
    · show (ctx.bitlen + data.length * 8) % U64 = _
      rw [hbit, Nat.mod_add_mod]
      congr 1
      simp only [List.length_append]
      ring
  · rw [if_neg hc1]
    by_cases hc2 : ctx.buflen > 0
    · rw [if_pos hc2]
      have hneed : 64 - ctx.buflen ≤ data.length := by omega
      have htk_len : (data.take (64 - ctx.buflen)).length = 64 - ctx.buflen := by
        rw [List.length_take]
        omega
      have hfl_len : (writeBytes ctx.buffer ctx.buflen (data.take (64 - ctx.buflen))).length
          = 64 := by
        rw [writeBytes_length]
        exact hlen64
      have hfilled : writeBytes ctx.buffer ctx.buflen (data.take (64 - ctx.buflen))
          = msg.drop (msg.length - msg.length % 64) ++ data.take (64 - ctx.buflen) := by
        rw [writeBytes_eq _ _ _ (by rw [htk_len, hlen64]; omega)]
        have hd64 : ctx.buffer.drop (ctx.buflen + (data.take (64 - ctx.buflen)).length)
            = [] := List.drop_eq_nil_of_le (by rw [htk_len, hlen64]; omega)
        rw [hd64, List.append_nil, hbuf]
      have hblock1len : (msg.drop (msg.length - msg.length % 64) ++
          data.take (64 - ctx.buflen)).length = 64 := by
        rw [List.length_append, hTlen, htk_len]
        omega
      have hsplit2 : msg ++ data = (msg.take (msg.length - msg.length % 64) ++
          (msg.drop (msg.length - msg.length % 64) ++ data.take (64 - ctx.buflen))) ++
          data.drop (64 - ctx.buflen) := by
        rw [List.append_assoc, List.append_assoc, List.take_append_drop,
          ← List.append_assoc, hsplit]
      have hAdvd : 64 ∣ (msg.take (msg.length - msg.length % 64) ++
          (msg.drop (msg.length - msg.length % 64) ++ data.take (64 - ctx.buflen))).length := by
        rw [List.length_append, hClen, hblock1len]
        exact ⟨msg.length / 64 + 1, by omega⟩
      obtain ⟨ph, pbit, pblen, pbuf64, pbuf⟩ :=
        updateBlocksPhase_facts
          { Sha256Ctx.transform
              { ctx with buffer := writeBytes ctx.buffer ctx.buflen (data.take (64 - ctx.buflen)) }
              (writeBytes ctx.buffer ctx.buflen (data.take (64 - ctx.buflen)))
            with buflen := 0 }
          (data.drop (64 - ctx.buflen)) hfl_len rfl
      refine ⟨?_, ?_, ?_, ?_, ?_⟩
      · show (updateBlocksPhase _ _).h = _
        rw [ph]
        show hashBlocksH (transformH ctx.h
          (writeBytes ctx.buffer ctx.buflen (data.take (64 - ctx.buflen)))) _ = _
        rw [hfilled]
        conv_rhs => rw [hsplit2]
        rw [hashBlocksH_append _ _ _ hAdvd, hashBlocksH_append _ _ _ hCdvd,
          hashBlocksH_exact _ _ hblock1len, ← hhC, ← hh]
      · show (updateBlocksPhase _ _).buflen = _
        rw [pblen]
        simp only [List.length_drop, List.length_append]
        omega
      · show (updateBlocksPhase _ _).buffer.take (updateBlocksPhase _ _).buflen = _
        rw [pblen, pbuf]
        have hidx2 : (msg ++ data).length - (msg ++ data).length % 64
            = (msg.take (msg.length - msg.length % 64) ++
                (msg.drop (msg.length - msg.length % 64) ++
                  data.take (64 - ctx.buflen))).length +
              ((data.drop (64 - ctx.buflen)).length -
                (data.drop (64 - ctx.buflen)).length % 64) := by
          simp only [List.length_append, List.length_take, List.length_drop]
          omega
        conv_rhs => rw [hidx2, hsplit2, List.drop_append]
      · show (updateBlocksPhase _ _).buffer.length = 64
        exact pbuf64
      · show (ctx.bitlen + data.length * 8) % U64 = _
        rw [hbit, Nat.mod_add_mod]
        congr 1
        simp only [List.length_append]
        ring
    · rw [if_neg hc2]
      have hbl0 : ctx.buflen = 0 := by omega
      have hr0 : msg.length % 64 = 0 := by omega
      have hmdvd : 64 ∣ msg.length := ⟨msg.length / 64, by omega⟩
      obtain ⟨ph, pbit, pblen, pbuf64, pbuf⟩ :=
        updateBlocksPhase_facts ctx data hlen64 hbl0
      refine ⟨?_, ?_, ?_, ?_, ?_⟩
      · show (updateBlocksPhase _ _).h = _
        rw [ph, hh]
        exact (hashBlocksH_append H0 msg data hmdvd).symm
      · show (updateBlocksPhase _ _).buflen = _
        rw [pblen]
        simp only [List.length_append]
        omega
      · show (updateBlocksPhase _ _).buffer.take (updateBlocksPhase _ _).buflen = _
        rw [pblen, pbuf]
        have hidx3 : (msg ++ data).length - (msg ++ data).length % 64
            = msg.length + (data.length - data.length % 64) := by
          simp only [List.length_append]
          omega
        conv_rhs => rw [hidx3, List.drop_append]
      · show (updateBlocksPhase _ _).buffer.length = 64
        exact pbuf64
      · show (ctx.bitlen + data.length * 8) % U64 = _
        rw [hbit, Nat.mod_add_mod]
        congr 1
        simp only [List.length_append]
        ring

theorem absorbed_foldl : ∀ (chunks : List (List Nat)) (msg : List Nat) (ctx : Sha256Ctx),
    Absorbed msg ctx →
    Absorbed (msg ++ chunks.flatten) (chunks.foldl rust_sha256_update ctx) := by
  intro chunks
  induction chunks with
  | nil =>
    intro msg ctx h
    simpa using h
  | cons d ds ih =>
    intro msg ctx h
    have h2 := ih (msg ++ d) _ (absorbed_update msg d ctx h)
    simpa [List.append_assoc] using h2

theorem take_set_succ (l : List Nat) (n v : Nat) (h : n < l.length) :
    (l.set n v).take (n + 1) = l.take n ++ [v] := by
  rw [List.set_eq_take_append_cons_drop, if_pos h, List.take_append_eq_append_take]
  have hlt : (l.take n).length = n := by rw [List.length_take]; omega
  rw [List.take_of_length_le (by rw [hlt]; omega), hlt]
  have h1 : n + 1 - n = 1 := by omega
  rw [h1]
  rfl

theorem u64be_length (bits : Nat) : (u64be bits).length = 8 := rfl

theorem final_pad_buf (bufI : List Nat) (blI bits : Nat)
    (hlen : bufI.length = 64) (hble : blI ≤ 56) :
    writeBytes (writeBytes bufI blI (List.replicate (56 - blI) 0)) 56 (u64be bits)
      = (bufI.take blI ++ List.replicate (56 - blI) 0) ++ u64be bits := by
  have h3 : writeBytes bufI blI (List.replicate (56 - blI) 0)
      = (bufI.take blI ++ List.replicate (56 - blI) 0) ++ bufI.drop 56 := by
    rw [writeBytes_eq _ _ _ (by simp [hlen]; omega)]
    have hi : blI + (List.replicate (56 - blI) 0).length = 56 := by simp; omega
    rw [hi]
  have h3len : (writeBytes bufI blI (List.replicate (56 - blI) 0)).length = 64 := by
    rw [writeBytes_length]
    exact hlen
  rw [writeBytes_eq _ _ _ (by rw [h3len, u64be_length])]
  have hd : (writeBytes bufI blI (List.replicate (56 - blI) 0)).drop (56 + (u64be bits).length)
      = [] := List.drop_eq_nil_of_le (by rw [h3len, u64be_length])
  rw [hd, List.append_nil, h3]
  have hfront : (bufI.take blI ++ List.replicate (56 - blI) 0).length = 56 := by
    rw [List.length_append, List.length_take, List.length_replicate]
    omega
  rw [List.take_left' hfront]

theorem final_congr (ctx ctx' : Sha256Ctx)
    (hb : ctx.buffer.length = 64) (hb' : ctx'.buffer.length = 64)
    (hhh : ctx.h = ctx'.h) (hbl : ctx.buflen = ctx'.buflen) (hle : ctx.buflen ≤ 63)
    (hpre : ctx.buffer.take ctx.buflen = ctx'.buffer.take ctx'.buflen)
    (hbit : ctx.bitlen = ctx'.bitlen) :
    rust_sha256_final ctx = rust_sha256_final ctx' := by
  have hle' : ctx'.buflen ≤ 63 := hbl ▸ hle
  have hFP : (finalPad ctx).2.h = (finalPad ctx').2.h ∧
      (finalPad ctx).2.bitlen = (finalPad ctx').2.bitlen ∧
      finalLenBlock (finalPad ctx).2 ctx.bitlen =
        finalLenBlock (finalPad ctx').2 ctx'.bitlen := by
    simp only [finalPad]
    by_cases h56 : ctx.buflen + 1 > 56
    · have h56' : ctx'.buflen + 1 > 56 := by omega
      rw [if_pos h56, if_pos h56']
      have hz : writeBytes (ctx.buffer.set ctx.buflen 0x80) (ctx.buflen + 1)
          (List.replicate (64 - (ctx.buflen + 1)) 0)
          = (ctx.buffer.take ctx.buflen ++ [0x80]) ++
            List.replicate (64 - (ctx.buflen + 1)) 0 := by
        rw [writeBytes_eq _ _ _ (by simp [hb]; omega)]
        have hdz : (ctx.buffer.set ctx.buflen 0x80).drop
            (ctx.buflen + 1 + (List.replicate (64 - (ctx.buflen + 1)) 0).length) = [] :=
          List.drop_eq_nil_of_le (by simp [hb]; omega)
        rw [hdz, List.append_nil, take_set_succ _ _ _ (by rw [hb]; omega)]
      have hz' : writeBytes (ctx'.buffer.set ctx'.buflen 0x80) (ctx'.buflen + 1)
          (List.replicate (64 - (ctx'.buflen + 1)) 0)
          = (ctx'.buffer.take ctx'.buflen ++ [0x80]) ++
            List.replicate (64 - (ctx'.buflen + 1)) 0 := by
        rw [writeBytes_eq _ _ _ (by simp [hb']; omega)]
        have hdz : (ctx'.buffer.set ctx'.buflen 0x80).drop
            (ctx'.buflen + 1 + (List.replicate (64 - (ctx'.buflen + 1)) 0).length) = [] :=
          List.drop_eq_nil_of_le (by simp [hb']; omega)
        rw [hdz, List.append_nil, take_set_succ _ _ _ (by rw [hb']; omega)]
      refine ⟨?_, hbit, ?_⟩
      · show transformH ctx.h _ = transformH ctx'.h _
        rw [hz, hz', hpre, hhh, hbl]
      · simp only [finalLenBlock, Sha256Ctx.transform]
        rw [hz, hz', hpre, hbl, hbit]
    · have h56' : ¬ ctx'.buflen + 1 > 56 := by omega
      rw [if_neg h56, if_neg h56']
      refine ⟨hhh, hbit, ?_⟩
      simp only [finalLenBlock]
      show writeBytes (writeBytes (ctx.buffer.set ctx.buflen 0x80) (ctx.buflen + 1)
          (List.replicate (56 - (ctx.buflen + 1)) 0)) 56 (u64be ctx.bitlen) = _
      have hp := final_pad_buf (ctx.buffer.set ctx.buflen 0x80) (ctx.buflen + 1) ctx.bitlen
        (by simp [hb]) (by omega)
      have hp' := final_pad_buf (ctx'.buffer.set ctx'.buflen 0x80) (ctx'.buflen + 1)
        ctx'.bitlen (by simp [hb']) (by omega)
      rw [take_set_succ _ _ _ (by rw [hb]; omega)] at hp
      rw [take_set_succ _ _ _ (by rw [hb']; omega)] at hp'
      rw [hp, hp', hpre, hbl, hbit]
  obtain ⟨h1, h2, h3⟩ := hFP
  simp only [rust_sha256_final, rust_sha256_final_trace, Sha256Ctx.transform]
  rw [h3, h1, h2]

/-- C1: streaming equivalence — for any initial context, any byte stream
and any splitting of it into chunks (zero-length, block-aligned or
straddling), feeding the chunks through successive update calls and
finalizing yields the same 32-byte digest as a single update with the
whole concatenation. -/
theorem streaming_equivalence (ctx0 : Sha256Ctx) (hb : ctx0.buffer.length = 64)
    (chunks : List (List Nat)) :
    finalDigest (chunks.foldl rust_sha256_update (rust_sha256_init ctx0)) =
    finalDigest (rust_sha256_update (rust_sha256_init ctx0) chunks.flatten) := by
  have hA := absorbed_foldl chunks [] (rust_sha256_init ctx0) (absorbed_init ctx0 hb)
  have hB := absorbed_update [] chunks.flatten (rust_sha256_init ctx0) (absorbed_init ctx0 hb)
  rw [List.nil_append] at hA hB
  obtain ⟨h1, h2, h3, h4, h5⟩ := hA
  obtain ⟨g1, g2, g3, g4, g5⟩ := hB
  have hcong := final_congr _ _ h4 g4 (h1.trans g1.symm) (h2.trans g2.symm)
      (by rw [h2]; omega) (h3.trans g3.symm) (h5.trans g5.symm)
  rw [finalDigest, finalDigest, hcong]

/-- C1 witness. -/
theorem streaming_equivalence_witness :
    finalDigest (([[0x61], [], [0x62, 0x63]] : List (List Nat)).foldl
      rust_sha256_update (rust_sha256_init zeroCtx)) =
    finalDigest (rust_sha256_update (rust_sha256_init zeroCtx)
      ([[0x61], [], [0x62, 0x63]] : List (List Nat)).flatten) :=
  streaming_equivalence zeroCtx (by decide) [[0x61], [], [0x62, 0x63]]

/-- C5: between update calls the context's buffer bookkeeping is exact:
`buflen` is at most 63, equals the total byte count mod 64, and the first
`buflen` buffer bytes are exactly the unconsumed tail of all bytes passed
to update so far. -/
theorem buffer_invariant (ctx0 : Sha256Ctx) (hb : ctx0.buffer.length = 64)
    (chunks : List (List Nat)) :
    (chunks.foldl rust_sha256_update (rust_sha256_init ctx0)).buflen ≤ 63 ∧
    (chunks.foldl rust_sha256_update (rust_sha256_init ctx0)).buflen =
      chunks.flatten.length % 64 ∧
    (chunks.foldl rust_sha256_update (rust_sha256_init ctx0)).buffer.take
        (chunks.foldl rust_sha256_update (rust_sha256_init ctx0)).buflen =
      chunks.flatten.drop (chunks.flatten.length - chunks.flatten.length % 64) := by
  have hA := absorbed_foldl chunks [] (rust_sha256_init ctx0) (absorbed_init ctx0 hb)
  rw [List.nil_append] at hA
  obtain ⟨h1, h2, h3, h4, h5⟩ := hA
  exact ⟨by rw [h2]; omega, h2, h3⟩

/-- C5 witness. -/
theorem buffer_invariant_witness :
    (([[1, 2, 3]] : List (List Nat)).foldl rust_sha256_update
      (rust_sha256_init zeroCtx)).buflen ≤ 63 ∧
    (([[1, 2, 3]] : List (List Nat)).foldl rust_sha256_update
      (rust_sha256_init zeroCtx)).buflen =
      ([[1, 2, 3]] : List (List Nat)).flatten.length % 64 ∧
    (([[1, 2, 3]] : List (List Nat)).foldl rust_sha256_update
      (rust_sha256_init zeroCtx)).buffer.take
        (([[1, 2, 3]] : List (List Nat)).foldl rust_sha256_update
          (rust_sha256_init zeroCtx)).buflen =
      ([[1, 2, 3]] : List (List Nat)).flatten.drop
        (([[1, 2, 3]] : List (List Nat)).flatten.length -
          ([[1, 2, 3]] : List (List Nat)).flatten.length % 64) :=
  buffer_invariant zeroCtx (by decide) [[1, 2, 3]]

/-- C8: `rust_sha256_init` sets the state to the eight SHA-256 constants,
`buflen` to 0 and `bitlen` to 0, whatever the context held before, and
iterating it any positive number of times equals calling it once. -/
theorem init_contract : ∀ ctx : Sha256Ctx,
    (rust_sha256_init ctx).h = [0x6a09e667, 0xbb67ae85, 0x3c6ef372, 0xa54ff53a,
      0x510e527f, 0x9b05688c, 0x1f83d9ab, 0x5be0cd19] ∧
    (rust_sha256_init ctx).buflen = 0 ∧
    (rust_sha256_init ctx).bitlen = 0 ∧
    ∀ n : Nat, rust_sha256_init^[n + 1] ctx = rust_sha256_init ctx := by
  intro ctx
  refine ⟨rfl, rfl, rfl, ?_⟩
  intro n
  induction n with
  | zero => rfl
  | succ n ih =>
    rw [Function.iterate_succ_apply', ih]
    rfl

/-- C10: the transform writes only the `h` field: buffer, buflen and bitlen
are untouched, and the new state is a pure function of the old state and
the block. -/
theorem transform_frame : ∀ (ctx : Sha256Ctx) (block : List Nat),
    (ctx.transform block).buffer = ctx.buffer ∧
    (ctx.transform block).buflen = ctx.buflen ∧
    (ctx.transform block).bitlen = ctx.bitlen ∧
    (ctx.transform block).h = transformH ctx.h block := by
  intro ctx block
  exact ⟨rfl, rfl, rfl, rfl⟩

theorem update_bitlen (ctx : Sha256Ctx) (data : List Nat) :
    (rust_sha256_update ctx data).bitlen = (ctx.bitlen + data.length * 8) % U64 := by
  rw [rust_sha256_update]
  split
  · rfl
  · split
    · rfl
    · rfl

theorem foldl_update_bitlen : ∀ (chunks : List (List Nat)) (c : Sha256Ctx),
    c.bitlen < U64 →
    (chunks.foldl rust_sha256_update c).bitlen = (c.bitlen + chunks.flatten.length * 8) % U64 := by
  intro chunks
  induction chunks with
  | nil =>
    intro c hc
    simp [Nat.mod_eq_of_lt hc]
  | cons d ds ih =>
    intro c hc
    rw [List.foldl_cons, ih _ (by
      rw [update_bitlen]
      exact Nat.mod_lt _ (by norm_num [U64]))]
    rw [update_bitlen, Nat.mod_add_mod]
    congr 1
    simp
    ring

/-- C6: the bit counter after any sequence of updates from `init` equals
8 times the total byte count (mod 2^64), and each update call adds exactly
`8 * n` for a span of length `n` (mod 2^64). -/
theorem bitlen_invariant :
    (∀ (ctx : Sha256Ctx) (data : List Nat),
      (rust_sha256_update ctx data).bitlen = (ctx.bitlen + data.length * 8) % U64) ∧
    (∀ (ctx0 : Sha256Ctx) (chunks : List (List Nat)),
      (chunks.foldl rust_sha256_update (rust_sha256_init ctx0)).bitlen =
        chunks.flatten.length * 8 % U64) := by
  refine ⟨update_bitlen, ?_⟩
  intro ctx0 chunks
  rw [foldl_update_bitlen chunks (rust_sha256_init ctx0) (by norm_num [rust_sha256_init, U64])]
  simp [rust_sha256_init]

/-- C2: the known-answer vectors: the digest of the empty input and of the
three-byte input "abc". -/
theorem known_answer_vectors :
    finalDigest (rust_sha256_update (rust_sha256_init zeroCtx) []) =
      [0xe3, 0xb0, 0xc4, 0x42, 0x98, 0xfc, 0x1c, 0x14,
       0x9a, 0xfb, 0xf4, 0xc8, 0x99, 0x6f, 0xb9, 0x24,
       0x27, 0xae, 0x41, 0xe4, 0x64, 0x9b, 0x93, 0x4c,
       0xa4, 0x95, 0x99, 0x1b, 0x78, 0x52, 0xb8, 0x55] ∧
    finalDigest (rust_sha256_update (rust_sha256_init zeroCtx) [0x61, 0x62, 0x63]) =
      [0xba, 0x78, 0x16, 0xbf, 0x8f, 0x01, 0xcf, 0xea,
       0x41, 0x41, 0x40, 0xde, 0x5d, 0xae, 0x22, 0x23,
       0xb0, 0x03, 0x61, 0xa3, 0x96, 0x17, 0x7a, 0x9c,
       0xb4, 0x10, 0xff, 0x61, 0xf2, 0x00, 0x15, 0xad] := by
  constructor
  · decide
  · decide

/-- C3 counterexample: a context whose buffered length before padding is
exactly 56 (so `b ≤ 56`), for which finalize nevertheless runs the
transform twice, refuting "exactly once when b ≤ 56". -/
theorem final_two_transforms_at_56 :
    (rust_sha256_update (rust_sha256_init zeroCtx) (List.replicate 56 0x61)).buflen = 56 ∧
    (rust_sha256_final_trace
      (rust_sha256_update (rust_sha256_init zeroCtx) (List.replicate 56 0x61))).1.length = 2 := by
  constructor
  · decide
  · decide

/-- C3 amended: finalize runs the transform exactly twice when the buffered
length before padding is at least 56 (55 is the exact-fit boundary), and
exactly once otherwise; equivalently two transforms occur exactly when the
buffer holds 57..64 valid bytes just after the 0x80 byte is appended. -/
theorem final_transform_count : ∀ ctx : Sha256Ctx,
    (rust_sha256_final_trace ctx).1.length = if 56 ≤ ctx.buflen then 2 else 1 := by
  intro ctx
  rw [rust_sha256_final_trace, finalPad]
  by_cases h : ctx.buflen + 1 > 56
  · simp only [if_pos h]
    rw [if_pos (by omega)]
    rfl
  · simp only [if_neg h]
    rw [if_neg (by omega)]
    rfl

theorem lor_eq_add : ∀ (n x b : Nat), 2 ^ n ∣ x → b < 2 ^ n → x ||| b = x + b := by
  intro n
  induction n with
  | zero =>
    intro x b _ hb
    have hb0 : b = 0 := by simpa using Nat.lt_one_iff.mp (by simpa using hb)
    subst hb0
    simp
  | succ n ih =>
    intro x b hx hb
    obtain ⟨c, hc⟩ := hx
    have hxe : x = 2 * (2 ^ n * c) := by rw [hc]; ring
    have h2n : 2 ^ (n + 1) = 2 * 2 ^ n := by ring
    have hx2 : x % 2 = 0 := by omega
    have hxd : 2 ^ n ∣ x / 2 := ⟨c, by omega⟩
    have hbd : b / 2 < 2 ^ n := by omega
    have hbitx : Nat.bit false (x / 2) = x := by
      simp only [Nat.bit_val, Bool.toNat_false]
      omega
    have hbitb : Nat.bit (decide (b % 2 = 1)) (b / 2) = b := by
      rcases Nat.mod_two_eq_zero_or_one b with h | h <;>
        simp only [Nat.bit_val, h, decide_eq_true_eq] <;> simp <;> omega
    calc x ||| b
        = Nat.bit false (x / 2) ||| Nat.bit (decide (b % 2 = 1)) (b / 2) := by
          rw [hbitx, hbitb]
      _ = Nat.bit (false || decide (b % 2 = 1)) (x / 2 ||| b / 2) := Nat.lor_bit _ _ _ _
      _ = Nat.bit (decide (b % 2 = 1)) (x / 2 + b / 2) := by rw [ih _ _ hxd hbd]; simp
      _ = x + b := by
          rcases Nat.mod_two_eq_zero_or_one b with h | h <;>
            simp only [Nat.bit_val, h, decide_eq_true_eq] <;> simp <;> omega

theorem toWord_eq_be (b0 b1 b2 b3 : Nat)
    (h0 : b0 < 256) (h1 : b1 < 256) (h2 : b2 < 256) (h3 : b3 < 256) :
    toWord b0 b1 b2 b3 = b0 * 2 ^ 24 + b1 * 2 ^ 16 + b2 * 2 ^ 8 + b3 := by
  have e1 : b0 * 2 ^ 24 ||| b1 * 2 ^ 16 = b0 * 2 ^ 24 + b1 * 2 ^ 16 :=
    lor_eq_add 24 _ _ ⟨b0, by ring⟩ (by norm_num; omega)
  have e2 : b0 * 2 ^ 24 + b1 * 2 ^ 16 ||| b2 * 2 ^ 8
      = b0 * 2 ^ 24 + b1 * 2 ^ 16 + b2 * 2 ^ 8 :=
    lor_eq_add 16 _ _ ⟨b0 * 2 ^ 8 + b1, by ring⟩ (by norm_num; omega)
  have e3 : b0 * 2 ^ 24 + b1 * 2 ^ 16 + b2 * 2 ^ 8 ||| b3
      = b0 * 2 ^ 24 + b1 * 2 ^ 16 + b2 * 2 ^ 8 + b3 :=
    lor_eq_add 8 _ _ ⟨b0 * 2 ^ 16 + b1 * 2 ^ 8 + b2, by ring⟩ (by norm_num; omega)
  rw [toWord, Nat.shiftLeft_eq, Nat.shiftLeft_eq, Nat.shiftLeft_eq, e1, e2, e3]

theorem getD_set_self (l : List Nat) (i v : Nat) (h : i < l.length) :
    (l.set i v).getD i 0 = v := by
  simp [List.getD_eq_getElem?_getD, List.getElem?_set_self h]

theorem getD_set_ne (l : List Nat) (i j v : Nat) (h : i ≠ j) :
    (l.set i v).getD j 0 = l.getD j 0 := by
  simp [List.getD_eq_getElem?_getD, List.getElem?_set_ne h]

theorem foldl_set_getD (g : List Nat → Nat → List Nat) (f : Nat → Nat)
    (hg : ∀ w i, g w i = w.set i (f i)) : ∀ (js : List Nat) (w : List Nat) (i : Nat),
    (js.foldl g w).getD i 0 =
      if i ∈ js ∧ i < w.length then f i else w.getD i 0 := by
  intro js
  induction js with
  | nil =>
    intro w i
    simp
  | cons j js ih =>
    intro w i
    rw [List.foldl_cons, hg, ih]
    simp only [List.length_set, List.mem_cons]
    by_cases hij : i = j
    · subst hij
      by_cases hilen : i < w.length
      · by_cases hin : i ∈ js
        · rw [if_pos ⟨hin, hilen⟩, if_pos ⟨Or.inl rfl, hilen⟩]
        · rw [if_neg (fun hcon => hin hcon.1), if_pos ⟨Or.inl rfl, hilen⟩,
            getD_set_self _ _ _ hilen]
      · rw [if_neg (fun hcon => hilen hcon.2), if_neg (fun hcon => hilen hcon.2),
          List.getD_eq_default _ _ (by simp; omega), List.getD_eq_default _ _ (by omega)]
    · rw [getD_set_ne _ _ _ _ (fun hcon => hij hcon.symm)]
      by_cases hcond : i ∈ js ∧ i < w.length
      · rw [if_pos hcond, if_pos ⟨Or.inr hcond.1, hcond.2⟩]
      · rw [if_neg hcond, if_neg (fun hcon => hcond ⟨hcon.1.resolve_left hij, hcon.2⟩)]

theorem foldl_set_length (g : List Nat → Nat → List Nat) (f : Nat → Nat)
    (hg : ∀ w i, g w i = w.set i (f i)) : ∀ (js : List Nat) (w : List Nat),
    ((js.foldl g w)).length = w.length := by
  intro js
  induction js with
  | nil => intro w; rfl
  | cons j js ih =>
    intro w
    rw [List.foldl_cons, hg, ih]
    simp

theorem specWs_length (block : List Nat) : ∀ n, (specWs block n).length = n := by
  intro n
  induction n with
  | zero => rfl
  | succ n ih =>
    simp only [specWs]
    simp [ih]

theorem specWs_take_eq (block : List Nat) : ∀ (n m i : Nat), m ≤ n → i < m →
    (specWs block n).getD i 0 = (specWs block m).getD i 0 := by
  intro n
  induction n with
  | zero =>
    intro m i hm hi
    omega
  | succ n ih =>
    intro m i hm hi
    by_cases hmn : m = n + 1
    · rw [hmn]
    · simp only [specWs]
      rw [List.getD_append _ _ _ _ (by rw [specWs_length]; omega)]
      exact ih m i (by omega) hi

theorem specWs_getD_succ (block : List Nat) (n : Nat) :
    (specWs block (n + 1)).getD n 0 =
      if n < 16 then
        block.getD (n * 4) 0 * 2 ^ 24 + block.getD (n * 4 + 1) 0 * 2 ^ 16 +
          block.getD (n * 4 + 2) 0 * 2 ^ 8 + block.getD (n * 4 + 3) 0
      else
        (ssig1 ((specWs block n).getD (n - 2) 0) + (specWs block n).getD (n - 7) 0 +
          ssig0 ((specWs block n).getD (n - 15) 0) + (specWs block n).getD (n - 16) 0)
          % U32 := by
  simp only [specWs]
  rw [List.getD_append_right _ _ _ _ (by rw [specWs_length]), specWs_length,
    Nat.sub_self, List.getD_cons_zero]

theorem specWs_getD_lt16 (block : List Nat) (i : Nat) (h16 : i < 16) :
    (specWs block 64).getD i 0 =
      block.getD (i * 4) 0 * 2 ^ 24 + block.getD (i * 4 + 1) 0 * 2 ^ 16 +
        block.getD (i * 4 + 2) 0 * 2 ^ 8 + block.getD (i * 4 + 3) 0 := by
  rw [specWs_take_eq block 64 (i + 1) i (by omega) (by omega), specWs_getD_succ,
    if_pos h16]

theorem specWs_getD_rec (block : List Nat) (i : Nat) (h16 : 16 ≤ i) (h64 : i < 64) :
    (specWs block 64).getD i 0 =
      (ssig1 ((specWs block 64).getD (i - 2) 0) + (specWs block 64).getD (i - 7) 0 +
        ssig0 ((specWs block 64).getD (i - 15) 0) + (specWs block 64).getD (i - 16) 0)
        % U32 := by
  conv_lhs => rw [specWs_take_eq block 64 (i + 1) i (by omega) (by omega)]
  rw [specWs_getD_succ, if_neg (by omega)]
  rw [← specWs_take_eq block 64 i (i - 2) (by omega) (by omega),
    ← specWs_take_eq block 64 i (i - 7) (by omega) (by omega),
    ← specWs_take_eq block 64 i (i - 15) (by omega) (by omega),
    ← specWs_take_eq block 64 i (i - 16) (by omega) (by omega)]

theorem extendW_invariant (block : List Nat) : ∀ (k m : Nat) (w : List Nat),
    16 ≤ m → m + k ≤ 64 → w.length = 64 →
    (∀ i, i < m → w.getD i 0 = (specWs block 64).getD i 0) →
    ((List.range' m k).foldl (fun w i =>
        w.set i ((ssig1 (w.getD (i - 2) 0) + w.getD (i - 7) 0 +
          ssig0 (w.getD (i - 15) 0) + w.getD (i - 16) 0) % U32)) w).length = 64 ∧
    ∀ i, i < m + k →
      ((List.range' m k).foldl (fun w i =>
        w.set i ((ssig1 (w.getD (i - 2) 0) + w.getD (i - 7) 0 +
          ssig0 (w.getD (i - 15) 0) + w.getD (i - 16) 0) % U32)) w).getD i 0 =
        (specWs block 64).getD i 0 := by
  intro k
  induction k with
  | zero =>
    intro m w h16 hmk hlen hinv
    exact ⟨hlen, fun i hi => hinv i (by omega)⟩
  | succ k ih =>
    intro m w h16 hmk hlen hinv
    rw [List.range'_succ, List.foldl_cons]
    have hb : m + (k + 1) = m + 1 + k := by omega
    rw [hb]
    apply ih (m + 1) _ (by omega) (by omega) (by simp [hlen])
    intro i hi
    by_cases him : i = m
    · subst him
      rw [getD_set_self _ _ _ (by rw [hlen]; omega)]
      rw [hinv _ (by omega), hinv _ (by omega), hinv _ (by omega), hinv _ (by omega)]
      exact (specWs_getD_rec block i h16 (by omega)).symm
    · rw [getD_set_ne _ _ _ _ (fun hcon => him hcon.symm)]
      exact hinv i (by omega)

theorem initW_facts (block : List Nat) :
    (initW block (List.replicate 64 0)).length = 64 ∧
    ∀ i, i < 16 → (initW block (List.replicate 64 0)).getD i 0 =
      toWord (block.getD (i * 4) 0) (block.getD (i * 4 + 1) 0)
        (block.getD (i * 4 + 2) 0) (block.getD (i * 4 + 3) 0) := by
  constructor
  · have h := foldl_set_length
      (fun w i => w.set i (toWord (block.getD (i * 4) 0) (block.getD (i * 4 + 1) 0)
        (block.getD (i * 4 + 2) 0) (block.getD (i * 4 + 3) 0)))
      (fun j => toWord (block.getD (j * 4) 0) (block.getD (j * 4 + 1) 0)
        (block.getD (j * 4 + 2) 0) (block.getD (j * 4 + 3) 0))
      (fun w i => rfl) (List.range 16) (List.replicate 64 0)
    rw [initW, h]
    simp
  · intro i hi
    have h := foldl_set_getD
      (fun w i => w.set i (toWord (block.getD (i * 4) 0) (block.getD (i * 4 + 1) 0)
        (block.getD (i * 4 + 2) 0) (block.getD (i * 4 + 3) 0)))
      (fun j => toWord (block.getD (j * 4) 0) (block.getD (j * 4 + 1) 0)
        (block.getD (j * 4 + 2) 0) (block.getD (j * 4 + 3) 0))
      (fun w i => rfl) (List.range 16) (List.replicate 64 0) i
    rw [if_pos ⟨List.mem_range.mpr hi, by simp; omega⟩] at h
    rw [initW, h]

theorem getD_bytes_lt (block : List Nat) (hbytes : ∀ b ∈ block, b < 256) (j : Nat) :
    block.getD j 0 < 256 := by
  by_cases hj : j < block.length
  · rw [List.getD_eq_getElem _ _ hj]
    exact hbytes _ (List.getElem_mem hj)
  · rw [List.getD_eq_default _ _ (by omega)]
    norm_num

theorem fullW_spec (block : List Nat) (hbytes : ∀ b ∈ block, b < 256) :
    (fullW block).length = 64 ∧
    ∀ i, i < 64 → (fullW block).getD i 0 = (specWs block 64).getD i 0 := by
  obtain ⟨hlen, hvals⟩ := initW_facts block
  have hin : ∀ i, i < 16 →
      (initW block (List.replicate 64 0)).getD i 0 = (specWs block 64).getD i 0 := by
    intro i hi
    rw [hvals i hi, specWs_getD_lt16 block i hi,
      toWord_eq_be _ _ _ _ (getD_bytes_lt block hbytes _) (getD_bytes_lt block hbytes _)
        (getD_bytes_lt block hbytes _) (getD_bytes_lt block hbytes _)]
  have h := extendW_invariant block 48 16 (initW block (List.replicate 64 0))
    (le_refl 16) (by omega) hlen hin
  exact ⟨h.1, fun i hi => h.2 i (by omega)⟩

theorem transformH_eq_specCompress (hs block : List Nat)
    (hlen8 : hs.length = 8) (hbytes : ∀ b ∈ block, b < 256) :
    transformH hs block = specCompress hs block := by
  obtain ⟨hflen, hfval⟩ := fullW_spec block hbytes
  simp only [transformH, specCompress]
  have hcong : ∀ v0 : Vars,
      (List.range 64).foldl (fun v i => roundStep (K.getD i 0) ((fullW block).getD i 0) v) v0
      = (List.range 64).foldl
          (fun v i => roundStep (K.getD i 0) ((specWs block 64).getD i 0) v) v0 := by
    intro v0
    exact List.foldl_ext _ _ v0 (fun a b hb => by rw [hfval b (List.mem_range.mp hb)])
  rw [hcong]
  rcases hs with _ | ⟨x0, _ | ⟨x1, _ | ⟨x2, _ | ⟨x3, _ | ⟨x4, _ | ⟨x5, _ | ⟨x6, _ | ⟨x7, rest⟩⟩⟩⟩⟩⟩⟩⟩ <;>
    simp at hlen8
  subst hlen8
  rfl

/-- C4: the transform computes the FIPS 180-4 SHA-256 compression function:
schedule words 0..15 are the block's bytes read as big-endian 32-bit
integers, words 16..63 satisfy the ssig1/ssig0 recurrence modulo 2^32, and
the result equals the specification-side compression (64 rounds followed
by the word-by-word wraparound addition of the working variables into the
state); all arithmetic is wrapping, never overflow-checked. -/
theorem transform_fips (ctx : Sha256Ctx) (block : List Nat)
    (hlen8 : ctx.h.length = 8) (hbytes : ∀ b ∈ block, b < 256) :
    (∀ i, i < 16 → (fullW block).getD i 0 =
        block.getD (i * 4) 0 * 2 ^ 24 + block.getD (i * 4 + 1) 0 * 2 ^ 16 +
        block.getD (i * 4 + 2) 0 * 2 ^ 8 + block.getD (i * 4 + 3) 0) ∧
    (∀ i, 16 ≤ i → i < 64 → (fullW block).getD i 0 =
        (ssig1 ((fullW block).getD (i - 2) 0) + (fullW block).getD (i - 7) 0 +
          ssig0 ((fullW block).getD (i - 15) 0) + (fullW block).getD (i - 16) 0) % U32) ∧
    (ctx.transform block).h = specCompress ctx.h block := by
  obtain ⟨hflen, hfval⟩ := fullW_spec block hbytes
  refine ⟨?_, ?_, ?_⟩
  · intro i hi
    rw [hfval i (by omega), specWs_getD_lt16 block i hi]
  · intro i h1 h2
    rw [hfval i h2, hfval (i - 2) (by omega), hfval (i - 7) (by omega),
      hfval (i - 15) (by omega), hfval (i - 16) (by omega)]
    exact specWs_getD_rec block i h1 h2
  · exact transformH_eq_specCompress ctx.h block hlen8 hbytes

/-- C4 witness. -/
theorem transform_fips_witness :
    (Sha256Ctx.transform zeroCtx (List.range 64)).h =
      specCompress zeroCtx.h (List.range 64) :=
  (transform_fips zeroCtx (List.range 64) (by decide) (by decide)).2.2

theorem flatten_pairs_length (f : Nat → List Nat) (hf : ∀ i, (f i).length = 2) :
    ∀ n : Nat, ((List.range n).map f).flatten.length = 2 * n := by
  intro n
  induction n with
  | zero => rfl
  | succ n ih =>
    rw [List.range_succ]
    simp only [List.map_append, List.flatten_append, List.length_append, ih]
    simp [hf]
    omega

theorem flatten_pairs_getD (f : Nat → List Nat) (hf : ∀ i, (f i).length = 2) :
    ∀ (n s i j : Nat), i < n → j < 2 →
    ((List.range' s n).map f).flatten.getD (2 * i + j) 0 = (f (s + i)).getD j 0 := by
  intro n
  induction n with
  | zero =>
    intro s i j hi hj
    omega
  | succ n ih =>
    intro s i j hi hj
    rw [List.range'_succ, List.map_cons, List.flatten_cons]
    by_cases hi0 : i = 0
    · subst hi0
      simp only [Nat.mul_zero, Nat.zero_add]
      rw [List.getD_append _ _ _ _ (by rw [hf]; omega)]
      simp
    · obtain ⟨k, rfl⟩ : ∃ k, i = k + 1 := ⟨i - 1, by omega⟩
      rw [List.getD_append_right _ _ _ _ (by rw [hf]; omega)]
      have hidx : 2 * (k + 1) + j - (f s).length = 2 * k + j := by rw [hf]; omega
      rw [hidx, ih (s + 1) k j (by omega) hj]
      have hs : s + 1 + k = s + (k + 1) := by omega
      rw [hs]

theorem hex_nibble_lt (b : Nat) (hb : b < 256) :
    b >>> 4 < 16 ∧ b &&& 0x0F < 16 := by
  constructor
  · rw [Nat.shiftRight_eq_div_pow]
    omega
  · have h := Nat.and_pow_two_sub_one_eq_mod b 4
    norm_num at h
    omega

theorem hex_char_in_range (v : Nat) (hv : v < 16) :
    (48 ≤ HEX_CHARS.getD v 0 ∧ HEX_CHARS.getD v 0 ≤ 57) ∨
    (97 ≤ HEX_CHARS.getD v 0 ∧ HEX_CHARS.getD v 0 ≤ 102) := by
  interval_cases v <;> simp [HEX_CHARS]

/-- C7: the hex encoder writes exactly 65 bytes for a 32-byte digest: for
each input byte i, output bytes 2i and 2i+1 are the hex digits of its high
and low nibble, byte 64 is the null terminator, the 64 characters are all
in 0-9a-f (as byte values), and the function is pure, so encoding twice
yields identical output. -/
theorem to_hex_contract (hash : List Nat) (hlen : hash.length = 32)
    (hbytes : ∀ b ∈ hash, b < 256) :
    (rust_sha256_to_hex hash).length = 65 ∧
    (rust_sha256_to_hex hash).getD 64 0 = 0 ∧
    (∀ i, i < 32 →
      (rust_sha256_to_hex hash).getD (2 * i) 0 =
        HEX_CHARS.getD (hash.getD i 0 >>> 4) 0 ∧
      (rust_sha256_to_hex hash).getD (2 * i + 1) 0 =
        HEX_CHARS.getD (hash.getD i 0 &&& 0x0F) 0) ∧
    (∀ c ∈ (rust_sha256_to_hex hash).take 64,
      (48 ≤ c ∧ c ≤ 57) ∨ (97 ≤ c ∧ c ≤ 102)) ∧
    rust_sha256_to_hex hash = rust_sha256_to_hex hash := by
  have hfl : ((List.range 32).map (fun i =>
      [HEX_CHARS.getD (hash.getD i 0 >>> 4) 0,
       HEX_CHARS.getD (hash.getD i 0 &&& 0x0F) 0])).flatten.length = 64 :=
    flatten_pairs_length (fun i =>
      [HEX_CHARS.getD (hash.getD i 0 >>> 4) 0,
       HEX_CHARS.getD (hash.getD i 0 &&& 0x0F) 0]) (fun i => rfl) 32
  have hget : ∀ i j, i < 32 → j < 2 →
      ((List.range 32).map (fun i =>
        [HEX_CHARS.getD (hash.getD i 0 >>> 4) 0,
         HEX_CHARS.getD (hash.getD i 0 &&& 0x0F) 0])).flatten.getD (2 * i + j) 0 =
      ([HEX_CHARS.getD (hash.getD i 0 >>> 4) 0,
        HEX_CHARS.getD (hash.getD i 0 &&& 0x0F) 0] : List Nat).getD j 0 := by
    intro i j hi hj
    rw [List.range_eq_range']
    rw [flatten_pairs_getD (fun i =>
      [HEX_CHARS.getD (hash.getD i 0 >>> 4) 0,
       HEX_CHARS.getD (hash.getD i 0 &&& 0x0F) 0]) (fun i => rfl) 32 0 i j hi hj]
    simp
  refine ⟨?_, ?_, ?_, ?_, rfl⟩
  · simp only [rust_sha256_to_hex, List.length_append, hfl]
    rfl
  · simp only [rust_sha256_to_hex]
    rw [List.getD_append_right _ _ _ _ (by rw [hfl])]
    rw [hfl]
    rfl
  · intro i hi
    constructor
    · simp only [rust_sha256_to_hex]
      rw [List.getD_append _ _ _ _ (by rw [hfl]; omega)]
      have h := hget i 0 hi (by omega)
      simpa using h
    · simp only [rust_sha256_to_hex]
      rw [List.getD_append _ _ _ _ (by rw [hfl]; omega)]
      exact hget i 1 hi (by omega)
  · intro c hc
    simp only [rust_sha256_to_hex] at hc
    rw [List.take_left' hfl] at hc
    rw [List.mem_flatten] at hc
    obtain ⟨l, hl, hcl⟩ := hc
    rw [List.mem_map] at hl
    obtain ⟨i, hi, rfl⟩ := hl
    have hbi := getD_bytes_lt hash hbytes i
    obtain ⟨hv1, hv2⟩ := hex_nibble_lt (hash.getD i 0) hbi
    simp only [List.mem_cons, List.mem_singleton, List.not_mem_nil, or_false] at hcl
    rcases hcl with h | h
    · rw [h]
      exact hex_char_in_range _ hv1
    · rw [h]
      exact hex_char_in_range _ hv2

/-- C7 witness. -/
theorem to_hex_contract_witness :
    (rust_sha256_to_hex (List.replicate 32 0xab)).length = 65 ∧
    (rust_sha256_to_hex (List.replicate 32 0xab)).getD 64 0 = 0 ∧
    (∀ i, i < 32 →
      (rust_sha256_to_hex (List.replicate 32 0xab)).getD (2 * i) 0 =
        HEX_CHARS.getD ((List.replicate 32 0xab).getD i 0 >>> 4) 0 ∧
      (rust_sha256_to_hex (List.replicate 32 0xab)).getD (2 * i + 1) 0 =
        HEX_CHARS.getD ((List.replicate 32 0xab).getD i 0 &&& 0x0F) 0) ∧
    (∀ c ∈ (rust_sha256_to_hex (List.replicate 32 0xab)).take 64,
      (48 ≤ c ∧ c ≤ 57) ∨ (97 ≤ c ∧ c ≤ 102)) ∧
    rust_sha256_to_hex (List.replicate 32 0xab) =
      rust_sha256_to_hex (List.replicate 32 0xab) :=
  to_hex_contract (List.replicate 32 0xab) (by decide) (by decide)

theorem getC_eq (l : List Nat) (i : Nat) (h : i < l.length) :
    getC l i = some (l.getD i 0) := by
  rw [getC, List.getElem?_eq_getElem h, List.getD_eq_getElem _ _ h]

theorem setC_eq (l : List Nat) (i v : Nat) (h : i < l.length) :
    setC l i v = some (l.set i v) := by
  rw [setC, if_pos h]

theorem rotrC_eq (x n : Nat) (h1 : 0 < n) (h2 : n < 32) :
    rotrC x n = some (rotr x n) := by
  have h3 : 32 - n < 32 := by omega
  simp [rotrC, shrC, shlC, rotr, h2, h3]

theorem bsig0C_eq (x : Nat) : bsig0C x = some (bsig0 x) := by
  simp [bsig0C, rotrC_eq x 2 (by norm_num) (by norm_num),
    rotrC_eq x 13 (by norm_num) (by norm_num),
    rotrC_eq x 22 (by norm_num) (by norm_num), bsig0]

theorem bsig1C_eq (x : Nat) : bsig1C x = some (bsig1 x) := by
  simp [bsig1C, rotrC_eq x 6 (by norm_num) (by norm_num),
    rotrC_eq x 11 (by norm_num) (by norm_num),
    rotrC_eq x 25 (by norm_num) (by norm_num), bsig1]

theorem ssig0C_eq (x : Nat) : ssig0C x = some (ssig0 x) := by
  simp [ssig0C, shrC, rotrC_eq x 7 (by norm_num) (by norm_num),
    rotrC_eq x 18 (by norm_num) (by norm_num), ssig0]

theorem ssig1C_eq (x : Nat) : ssig1C x = some (ssig1 x) := by
  simp [ssig1C, shrC, rotrC_eq x 17 (by norm_num) (by norm_num),
    rotrC_eq x 19 (by norm_num) (by norm_num), ssig1]

theorem foldlM_eq_foldl {α β : Type} (P : α → Prop) (f : α → β → Option α)
    (g : α → β → α) : ∀ (l : List β),
    (∀ a b, b ∈ l → P a → f a b = some (g a b) ∧ P (g a b)) →
    ∀ a, P a → l.foldlM f a = some (l.foldl g a) ∧ P (l.foldl g a) := by
  intro l
  induction l with
  | nil =>
    intro _ a ha
    exact ⟨rfl, ha⟩
  | cons b l ih =>
    intro hstep a ha
    obtain ⟨hf, hP⟩ := hstep a b (by simp) ha
    rw [List.foldlM_cons, hf, List.foldl_cons]
    simp only [Option.bind_eq_bind, Option.some_bind]
    exact ih (fun a b hb hP => hstep a b (List.mem_cons_of_mem _ hb) hP) (g a b) hP

theorem K_length : K.length = 64 := rfl

theorem transformH_length (hs block : List Nat) : (transformH hs block).length = 8 := rfl

theorem HEX_CHARS_length : HEX_CHARS.length = 16 := rfl

theorem transformHC_eq (hs block : List Nat) (hhs : hs.length = 8)
    (hbl : block.length = 64) :
    transformHC hs block = some (transformH hs block) := by
  obtain ⟨hA1, hA2⟩ := foldlM_eq_foldl (fun w : List Nat => w.length = 64)
    (initWStepC block)
    (fun w i => w.set i (toWord (block.getD (i * 4) 0) (block.getD (i * 4 + 1) 0)
      (block.getD (i * 4 + 2) 0) (block.getD (i * 4 + 3) 0)))
    (List.range 16)
    (fun w i hi hw => by
      have hi16 : i < 16 := List.mem_range.mp hi
      constructor
      · rw [initWStepC, getC_eq _ _ (by rw [hbl]; omega), getC_eq _ _ (by rw [hbl]; omega),
          getC_eq _ _ (by rw [hbl]; omega), getC_eq _ _ (by rw [hbl]; omega)]
        simp only [Option.bind_eq_bind, Option.some_bind]
        exact setC_eq _ _ _ (by rw [hw]; omega)
      · simp [hw])
    (List.replicate 64 0) (by simp)
  obtain ⟨hB1, hB2⟩ := foldlM_eq_foldl (fun w : List Nat => w.length = 64)
    extendWStepC
    (fun w i => w.set i ((ssig1 (w.getD (i - 2) 0) + w.getD (i - 7) 0 +
      ssig0 (w.getD (i - 15) 0) + w.getD (i - 16) 0) % U32))
    (List.range' 16 48)
    (fun w i hi hw => by
      obtain ⟨k, hk, hik⟩ := List.mem_range'.mp hi
      constructor
      · rw [extendWStepC, getC_eq _ _ (by rw [hw]; omega), getC_eq _ _ (by rw [hw]; omega),
          getC_eq _ _ (by rw [hw]; omega), getC_eq _ _ (by rw [hw]; omega)]
        simp only [Option.bind_eq_bind, Option.some_bind, ssig1C_eq, ssig0C_eq]
        exact setC_eq _ _ _ (by rw [hw]; omega)
      · simp [hw])
    _ hA2
  have hV : initVarsC hs = some ⟨hs.getD 0 0, hs.getD 1 0, hs.getD 2 0, hs.getD 3 0,
      hs.getD 4 0, hs.getD 5 0, hs.getD 6 0, hs.getD 7 0⟩ := by
    rw [initVarsC, getC_eq _ _ (by rw [hhs]; omega), getC_eq _ _ (by rw [hhs]; omega),
      getC_eq _ _ (by rw [hhs]; omega), getC_eq _ _ (by rw [hhs]; omega),
      getC_eq _ _ (by rw [hhs]; omega), getC_eq _ _ (by rw [hhs]; omega),
      getC_eq _ _ (by rw [hhs]; omega), getC_eq _ _ (by rw [hhs]; omega)]
    simp only [Option.bind_eq_bind, Option.some_bind]
    rfl
  obtain ⟨hR1, _⟩ := foldlM_eq_foldl (fun _ : Vars => True)
    (roundStepC ((List.range' 16 48).foldl
      (fun w i => w.set i ((ssig1 (w.getD (i - 2) 0) + w.getD (i - 7) 0 +
        ssig0 (w.getD (i - 15) 0) + w.getD (i - 16) 0) % U32))
      ((List.range 16).foldl
        (fun w i => w.set i (toWord (block.getD (i * 4) 0) (block.getD (i * 4 + 1) 0)
          (block.getD (i * 4 + 2) 0) (block.getD (i * 4 + 3) 0)))
        (List.replicate 64 0))))
    (fun v i => roundStep (K.getD i 0)
      (((List.range' 16 48).foldl
        (fun w i => w.set i ((ssig1 (w.getD (i - 2) 0) + w.getD (i - 7) 0 +
          ssig0 (w.getD (i - 15) 0) + w.getD (i - 16) 0) % U32))
        ((List.range 16).foldl
          (fun w i => w.set i (toWord (block.getD (i * 4) 0) (block.getD (i * 4 + 1) 0)
            (block.getD (i * 4 + 2) 0) (block.getD (i * 4 + 3) 0)))
          (List.replicate 64 0))).getD i 0) v)
    (List.range 64)
    (fun v i hi _ => by
      have hi64 : i < 64 := List.mem_range.mp hi
      refine ⟨?_, trivial⟩
      rw [roundStepC, getC_eq _ _ (by rw [K_length]; omega),
        getC_eq _ _ (by rw [hB2]; omega)]
      simp only [Option.bind_eq_bind, Option.some_bind, bsig1C_eq, bsig0C_eq]
      rfl)
    ⟨hs.getD 0 0, hs.getD 1 0, hs.getD 2 0, hs.getD 3 0,
      hs.getD 4 0, hs.getD 5 0, hs.getD 6 0, hs.getD 7 0⟩ trivial
  have hAdd : ∀ v : Vars, addBackC hs v = some
      [(hs.getD 0 0 + v.a) % U32, (hs.getD 1 0 + v.b) % U32,
       (hs.getD 2 0 + v.c) % U32, (hs.getD 3 0 + v.d) % U32,
       (hs.getD 4 0 + v.e) % U32, (hs.getD 5 0 + v.f) % U32,
       (hs.getD 6 0 + v.g) % U32, (hs.getD 7 0 + v.h) % U32] := by
    intro v
    rw [addBackC, getC_eq _ _ (by rw [hhs]; omega), getC_eq _ _ (by rw [hhs]; omega),
      getC_eq _ _ (by rw [hhs]; omega), getC_eq _ _ (by rw [hhs]; omega),
      getC_eq _ _ (by rw [hhs]; omega), getC_eq _ _ (by rw [hhs]; omega),
      getC_eq _ _ (by rw [hhs]; omega), getC_eq _ _ (by rw [hhs]; omega)]
    simp only [Option.bind_eq_bind, Option.some_bind]
    rfl
  rw [transformHC, hA1]
  simp only [Option.bind_eq_bind, Option.some_bind]
  rw [hB1]
  simp only [Option.bind_eq_bind, Option.some_bind]
  rw [hV]
  simp only [Option.bind_eq_bind, Option.some_bind]
  rw [hR1]
  simp only [Option.bind_eq_bind, Option.some_bind]
  rw [hAdd]
  rfl

theorem writeBytesC_eq : ∀ (data buf : List Nat) (pos : Nat),
    pos + data.length ≤ buf.length →
    writeBytesC buf pos data = some (writeBytes buf pos data) := by
  intro data
  induction data with
  | nil =>
    intro buf pos _
    rfl
  | cons b rest ih =>
    intro buf pos hle
    rw [writeBytesC, setC_eq _ _ _ (by simp at hle; omega)]
    simp only [Option.bind_eq_bind, Option.some_bind]
    rw [writeBytes]
    exact ih _ _ (by simp at hle ⊢; omega)

theorem processBlocksGoC_eq : ∀ (n : Nat) (ctx : Sha256Ctx) (d : List Nat),
    ctx.h.length = 8 → 64 * n ≤ d.length →
    processBlocksGoC n ctx d = some (processBlocksGo n ctx d) := by
  intro n
  induction n with
  | zero =>
    intro ctx d _ _
    rfl
  | succ n ih =>
    intro ctx d hh hlen
    rw [processBlocksGoC, transformHC_eq _ _ hh (by rw [List.length_take]; omega)]
    simp only [Option.bind_eq_bind, Option.some_bind]
    rw [processBlocksGo]
    exact ih _ _ (transformH_length _ _) (by simp; omega)

theorem updateBlocksPhaseC_eq (ctx : Sha256Ctx) (rest : List Nat)
    (hh : ctx.h.length = 8) (hbuf : ctx.buffer.length = 64) :
    updateBlocksPhaseC ctx rest = some (updateBlocksPhase ctx rest) := by
  rw [updateBlocksPhaseC, processBlocksGoC_eq _ _ _ hh (by omega)]
  simp only [Option.bind_eq_bind, Option.some_bind]
  simp only [updateBlocksPhase, processBlocks]
  by_cases hpos : (processBlocksGo (rest.length / 64) ctx rest).2.length > 0
  · rw [if_pos hpos, if_pos hpos]
    have hr2 : (processBlocksGo (rest.length / 64) ctx rest).2.length ≤ 64 := by
      rw [processBlocksGo_snd]
      simp
      omega
    have hb1 : (processBlocksGo (rest.length / 64) ctx rest).1.buffer.length = 64 := by
      rw [processBlocksGo_fst]
      exact hbuf
    rw [writeBytesC_eq _ _ _ (by omega)]
    simp only [Option.bind_eq_bind, Option.some_bind]
    rfl
  · rw [if_neg hpos, if_neg hpos]
    rfl

theorem updateC_eq (ctx : Sha256Ctx) (data : List Nat)
    (hh : ctx.h.length = 8) (hbuf : ctx.buffer.length = 64) (hbl : ctx.buflen ≤ 63) :
    updateC ctx data = some (rust_sha256_update ctx data) := by
  simp only [updateC, rust_sha256_update]
  by_cases hc1 : ctx.buflen > 0 ∧ data.length < 64 - ctx.buflen
  · rw [if_pos hc1, if_pos hc1,
      writeBytesC_eq _ _ _ (by rw [hbuf]; omega)]
    simp only [Option.bind_eq_bind, Option.some_bind]
    rfl
  · rw [if_neg hc1, if_neg hc1]
    by_cases hc2 : ctx.buflen > 0
    · rw [if_pos hc2, if_pos hc2,
        writeBytesC_eq _ _ _ (by rw [hbuf, List.length_take]; omega)]
      simp only [Option.bind_eq_bind, Option.some_bind]
      rw [transformHC_eq _ _ hh (by rw [writeBytes_length, hbuf])]
      simp only [Option.bind_eq_bind, Option.some_bind]
      rw [updateBlocksPhaseC_eq _ _ (transformH_length _ _)
        (by rw [writeBytes_length, hbuf])]
      simp only [Option.bind_eq_bind, Option.some_bind]
      rfl
    · rw [if_neg hc2, if_neg hc2, updateBlocksPhaseC_eq _ _ hh hbuf]
      simp only [Option.bind_eq_bind, Option.some_bind]
      rfl

theorem foldl_append_flatten (f : Nat → List Nat) : ∀ (l acc : List Nat),
    l.foldl (fun acc i => acc ++ f i) acc = acc ++ (l.map f).flatten := by
  intro l
  induction l with
  | nil =>
    intro acc
    simp
  | cons b l ih =>
    intro acc
    simp only [List.foldl_cons, List.map_cons, List.flatten_cons, ih,
      List.append_assoc]

theorem digestBytesC_eq (hs3 : List Nat) (hlen : hs3.length = 8) :
    digestBytesC hs3 = some (digestBytes hs3) := by
  obtain ⟨h1, _⟩ := foldlM_eq_foldl (fun _ : List Nat => True)
    (fun acc i => do
      let v ← getC hs3 i
      pure (acc ++ [(v >>> 24) % 256, (v >>> 16) % 256, (v >>> 8) % 256, v % 256]))
    (fun acc i => acc ++ [(hs3.getD i 0 >>> 24) % 256, (hs3.getD i 0 >>> 16) % 256,
      (hs3.getD i 0 >>> 8) % 256, hs3.getD i 0 % 256])
    (List.range 8)
    (fun acc i hi _ => by
      have hi8 : i < 8 := List.mem_range.mp hi
      refine ⟨?_, trivial⟩
      dsimp only
      rw [getC_eq _ _ (by rw [hlen]; omega)]
      simp only [Option.bind_eq_bind, Option.some_bind]
      rfl)
    [] trivial
  rw [digestBytesC, h1, foldl_append_flatten, digestBytes]
  rw [List.nil_append]

theorem finalPad_h_length (ctx : Sha256Ctx) (hh : ctx.h.length = 8) :
    (finalPad ctx).2.h.length = 8 := by
  rw [finalPad]
  by_cases h56 : ctx.buflen + 1 > 56
  · rw [if_pos h56]
    exact transformH_length _ _
  · rw [if_neg h56]
    exact hh

theorem finalPad_buffer_length (ctx : Sha256Ctx) (hbuf : ctx.buffer.length = 64) :
    (finalPad ctx).2.buffer.length = 64 := by
  rw [finalPad]
  by_cases h56 : ctx.buflen + 1 > 56
  · rw [if_pos h56]
    show (writeBytes _ _ _).length = 64
    rw [writeBytes_length]
    simp [hbuf]
  · rw [if_neg h56]
    show (ctx.buffer.set _ _).length = 64
    simp [hbuf]

theorem finalPad_buflen_le (ctx : Sha256Ctx) (hbl : ctx.buflen ≤ 63) :
    (finalPad ctx).2.buflen ≤ 56 := by
  rw [finalPad]
  by_cases h56 : ctx.buflen + 1 > 56
  · rw [if_pos h56]
    show (0 : Nat) ≤ 56
    omega
  · rw [if_neg h56]
    show ctx.buflen + 1 ≤ 56
    omega

theorem finalPadC_eq (ctx : Sha256Ctx) (hh : ctx.h.length = 8)
    (hbuf : ctx.buffer.length = 64) (hbl : ctx.buflen ≤ 63) :
    finalPadC ctx = some (finalPad ctx).2 := by
  rw [finalPadC, setC_eq ctx.buffer ctx.buflen 0x80 (by rw [hbuf]; omega)]
  simp only [Option.bind_eq_bind, Option.some_bind]
  rw [finalPad]
  by_cases h56 : ctx.buflen + 1 > 56
  · rw [if_pos h56, if_pos h56,
      writeBytesC_eq (List.replicate (64 - (ctx.buflen + 1)) 0)
        (ctx.buffer.set ctx.buflen 0x80) (ctx.buflen + 1) (by simp [hbuf]; omega)]
    simp only [Option.bind_eq_bind, Option.some_bind]
    rw [transformHC_eq _ _ hh (by rw [writeBytes_length]; simp [hbuf])]
    simp only [Option.bind_eq_bind, Option.some_bind]
    rfl
  · rw [if_neg h56, if_neg h56]
    rfl

theorem finalLenBlockC_eq (ctx2 : Sha256Ctx) (bits : Nat)
    (hbuf : ctx2.buffer.length = 64) (hbl : ctx2.buflen ≤ 56) :
    finalLenBlockC ctx2 bits = some (finalLenBlock ctx2 bits) := by
  rw [finalLenBlockC,
    writeBytesC_eq (List.replicate (56 - ctx2.buflen) 0) ctx2.buffer ctx2.buflen
      (by simp [hbuf]; omega)]
  simp only [Option.bind_eq_bind, Option.some_bind]
  rw [writeBytesC_eq (u64be bits) _ 56
    (by rw [writeBytes_length, hbuf, u64be_length])]
  rfl

theorem finalLenBlock_length (ctx2 : Sha256Ctx) (bits : Nat)
    (hbuf : ctx2.buffer.length = 64) :
    (finalLenBlock ctx2 bits).length = 64 := by
  rw [finalLenBlock, writeBytes_length, writeBytes_length, hbuf]

theorem finalC_eq (ctx : Sha256Ctx) (hh : ctx.h.length = 8)
    (hbuf : ctx.buffer.length = 64) (hbl : ctx.buflen ≤ 63) :
    finalC ctx = some (rust_sha256_final ctx) := by
  rw [finalC, finalPadC_eq ctx hh hbuf hbl]
  simp only [Option.bind_eq_bind, Option.some_bind]
  rw [finalLenBlockC_eq _ _ (finalPad_buffer_length ctx hbuf) (finalPad_buflen_le ctx hbl)]
  simp only [Option.bind_eq_bind, Option.some_bind]
  rw [transformHC_eq _ _ (finalPad_h_length ctx hh)
    (finalLenBlock_length _ _ (finalPad_buffer_length ctx hbuf))]
  simp only [Option.bind_eq_bind, Option.some_bind]
  rw [digestBytesC_eq _ (transformH_length _ _)]
  simp only [Option.bind_eq_bind, Option.some_bind]
  rfl

theorem toHexC_eq (hash : List Nat) (hlen : hash.length = 32)
    (hbytes : ∀ b ∈ hash, b < 256) :
    toHexC hash = some (rust_sha256_to_hex hash) := by
  obtain ⟨h1, _⟩ := foldlM_eq_foldl (fun _ : List Nat => True)
    (fun acc i => do
      let b ← getC hash i
      let hi ← getC HEX_CHARS (b >>> 4)
      let lo ← getC HEX_CHARS (b &&& 0x0F)
      pure (acc ++ [hi, lo]))
    (fun acc i => acc ++ [HEX_CHARS.getD (hash.getD i 0 >>> 4) 0,
      HEX_CHARS.getD (hash.getD i 0 &&& 0x0F) 0])
    (List.range 32)
    (fun acc i hi _ => by
      have hi32 : i < 32 := List.mem_range.mp hi
      obtain ⟨hn1, hn2⟩ := hex_nibble_lt (hash.getD i 0) (getD_bytes_lt hash hbytes i)
      refine ⟨?_, trivial⟩
      dsimp only
      rw [getC_eq _ _ (by rw [hlen]; omega)]
      simp only [Option.bind_eq_bind, Option.some_bind]
      rw [getC_eq _ _ (by rw [HEX_CHARS_length]; omega)]
      simp only [Option.bind_eq_bind, Option.some_bind]
      rw [getC_eq _ _ (by rw [HEX_CHARS_length]; omega)]
      simp only [Option.bind_eq_bind, Option.some_bind]
      rfl)
    [] trivial
  rw [toHexC, h1]
  simp only [Option.bind_eq_bind, Option.some_bind]
  rw [foldl_append_flatten, List.nil_append, rust_sha256_to_hex]
  rfl

/-- C9: under the documented preconditions (8-word state, 64-byte buffer,
`buflen` at most 63 on entry, 64-byte transform inputs, 32-byte digest of
u8 bytes), the checked embedding — in which every array index out of
bounds and every shift amount of 32 or more returns `none` — returns
`some` of the unchecked result for rotr and its callers, the transform,
update, final, and to_hex: the panic branch is unreachable. -/
theorem no_panic :
    (∀ x n, 0 < n → n < 32 → rotrC x n = some (rotr x n)) ∧
    (∀ x, bsig0C x = some (bsig0 x) ∧ bsig1C x = some (bsig1 x) ∧
      ssig0C x = some (ssig0 x) ∧ ssig1C x = some (ssig1 x)) ∧
    (∀ hs block, hs.length = 8 → block.length = 64 →
      transformHC hs block = some (transformH hs block)) ∧
    (∀ ctx data, ctx.h.length = 8 → ctx.buffer.length = 64 → ctx.buflen ≤ 63 →
      updateC ctx data = some (rust_sha256_update ctx data)) ∧
    (∀ ctx, ctx.h.length = 8 → ctx.buffer.length = 64 → ctx.buflen ≤ 63 →
      finalC ctx = some (rust_sha256_final ctx)) ∧
    (∀ hash, hash.length = 32 → (∀ b ∈ hash, b < 256) →
      toHexC hash = some (rust_sha256_to_hex hash)) :=
  ⟨rotrC_eq,
   fun x => ⟨bsig0C_eq x, bsig1C_eq x, ssig0C_eq x, ssig1C_eq x⟩,
   fun hs block h1 h2 => transformHC_eq hs block h1 h2,
   fun ctx data h1 h2 h3 => updateC_eq ctx data h1 h2 h3,
   fun ctx h1 h2 h3 => finalC_eq ctx h1 h2 h3,
   fun hash h1 h2 => toHexC_eq hash h1 h2⟩

/-- C9 witness. -/
theorem no_panic_witness :
    rotrC 5 7 = some (rotr 5 7) ∧
    bsig0C 12345 = some (bsig0 12345) ∧
    transformHC H0 (List.range 64) = some (transformH H0 (List.range 64)) ∧
    updateC zeroCtx [1, 2, 3] = some (rust_sha256_update zeroCtx [1, 2, 3]) ∧
    finalC (rust_sha256_init zeroCtx) = some (rust_sha256_final (rust_sha256_init zeroCtx)) ∧
    toHexC (List.replicate 32 7) = some (rust_sha256_to_hex (List.replicate 32 7)) :=
  ⟨no_panic.1 5 7 (by norm_num) (by norm_num),
   (no_panic.2.1 12345).1,
   no_panic.2.2.1 H0 (List.range 64) (by decide) (by decide),
   no_panic.2.2.2.1 zeroCtx [1, 2, 3] (by decide) (by decide) (by decide),
   no_panic.2.2.2.2.1 (rust_sha256_init zeroCtx) (by decide) (by decide) (by decide),
   no_panic.2.2.2.2.2 (List.replicate 32 7) (by decide) (by decide)⟩

end Sha256
